import Mathlib

/-!
# Quantumloop: a state-vector simulator of a small quantum register

Shallow embedding of `src/Quantumloop.c` and proofs of its specification.

Modelling conventions.

* The heap array `qs->qubits` is a `List K`; an in-place write `qubits[i] = x`
  is `List.set`, a read `qubits[i]` is `List.getD _ i 0`.
* C `int` values are natural numbers.  The program shifts `1 << n` in a 32-bit
  `int`, so the embedding describes the runs in which `2 ^ n` is representable
  (the range in which the C program has defined behaviour).
* `double` is an ordered field `R` and `double complex` a field `K`; the
  functions of `math.h` and `complex.h` that the program calls are collected
  in a `CMath R K`.  The theorems instantiate `R` with the real numbers and `K`
  with the complex numbers, which is the exact-arithmetic reading of the
  specification.
* Division is the division of the field.  It is the division of the program
  wherever the divisor is not zero; what the program stores after a division
  by zero is not modelled.
* A `for` loop is `forLoop`, which carries a fuel argument; every loop of the
  program is run with fuel equal to its bound, which is always sufficient
  because every step is positive.
-/

namespace Quantumloop

/-- The functions of `math.h` and `complex.h` used by the program. -/
structure CMath (R K : Type) where
  /-- The function `sqrt` on `double`. -/
  sqrt : R → R
  /-- The implicit conversion of a `double` to a `double complex`. -/
  ofReal : R → K
  /-- The function `creal`. -/
  creal : K → R
  /-- The function `conj`. -/
  conj : K → K

/-- The struct `QuantumSystem`: the amplitude array and the qubit count. -/
structure QuantumSystem (K : Type) where
  qubits : List K
  num_qubits : Nat

/-- The loop `for (i = i0; i < bound; i += step) s = body i s`, with fuel. -/
def forLoop {σ : Type} (bound step : Nat) (body : Nat → σ → σ) : Nat → Nat → σ → σ
  | 0, _, s => s
  | fuel + 1, i, s =>
    if i < bound then forLoop bound step body fuel (i + step) (body i s) else s

/-- The result of `malloc (size * sizeof(QState))`: `size` cells of
unspecified content, the content being given by `junk`. -/
def malloc {K : Type} (size : Nat) (junk : Nat → K) : List K :=
  (List.range size).map junk

/-- The function `init_quantum_system` (lines 16-26). -/
def init_quantum_system {K : Type} [Zero K] [One K] (junk : Nat → K) (n : Nat) :
    QuantumSystem K :=
  let qubits := malloc (1 <<< n) junk
  { num_qubits := n
    qubits := forLoop (1 <<< n) 1 (fun i v => v.set i (if i = 0 then 1 else 0))
      (1 <<< n) 0 qubits }

/-- The body of the inner loop of `hadamard` (lines 40-47). -/
def hadamardBody {K : Type} [Field K] (factor : K) (stride i j : Nat) (v : List K) :
    List K :=
  let pos0 := i + j
  let pos1 := pos0 + stride
  let a := v.getD pos0 0
  let b := v.getD pos1 0
  (v.set pos0 (factor * (a + b))).set pos1 (factor * (a - b))

/-- The function `hadamard` (lines 33-50). -/
def hadamard {R K : Type} [LinearOrderedField R] [Field K] (M : CMath R K)
    (qs : QuantumSystem K) (qubit : Nat) : QuantumSystem K :=
  let stride := 1 <<< qubit
  let size := 1 <<< qs.num_qubits
  let factor : R := 1 / M.sqrt 2
  { qs with
    qubits := forLoop size (1 <<< (qubit + 1))
      (fun i v => forLoop stride 1 (hadamardBody (M.ofReal factor) stride i) stride 0 v)
      size 0 qs.qubits }

/-- The body of the loop of `cnot` (lines 59-67). -/
def cnotBody {K : Type} [Zero K] (cstride tstride i : Nat) (v : List K) : List K :=
  if i &&& cstride ≠ 0 then
    let target_pos := i ^^^ tstride
    if target_pos > i then
      let temp := v.getD i 0
      (v.set i (v.getD target_pos 0)).set target_pos temp
    else v
  else v

/-- The function `cnot` (lines 52-69). -/
def cnot {K : Type} [Zero K] (qs : QuantumSystem K) (cqubit tqubit : Nat) :
    QuantumSystem K :=
  let cstride := 1 <<< cqubit
  let tstride := 1 <<< tqubit
  let size := 1 <<< qs.num_qubits
  { qs with qubits := forLoop size 1 (cnotBody cstride tstride) size 0 qs.qubits }

/-- The first loop of `measure` (lines 75-79): the probability of outcome 0. -/
def measureProb0 {R K : Type} [LinearOrderedField R] [Field K] (M : CMath R K)
    (qs : QuantumSystem K) (qubit : Nat) : R :=
  let stride := 1 <<< qubit
  forLoop (1 <<< qs.num_qubits) 1
    (fun i prob0 =>
      if i &&& stride = 0 then
        prob0 + M.creal (qs.qubits.getD i 0 * M.conj (qs.qubits.getD i 0))
      else prob0)
    (1 <<< qs.num_qubits) 0 0

/-- The value `(double)rand() / RAND_MAX` (line 81) when `rand()` returns `k`. -/
def randDraw {R : Type} [LinearOrderedField R] (RAND_MAX k : Nat) : R :=
  (k : R) / (RAND_MAX : R)

/-- The function `measure` (lines 71-104); `r` is the value drawn at line 81.
The result is the returned outcome and the system after the call.  The
quotient `/=` is the division of the field `K`, which agrees with the division
of the program wherever the divisor is not zero; the content that a division
by a zero divisor leaves in a cell is not described by this definition. -/
def measure {R K : Type} [LinearOrderedField R] [Field K] (M : CMath R K)
    (qs : QuantumSystem K) (qubit : Nat) (r : R) : Nat × QuantumSystem K :=
  let stride := 1 <<< qubit
  let prob0 := measureProb0 M qs qubit
  if r < prob0 then
    (0, { qs with
      qubits := forLoop (1 <<< qs.num_qubits) 1
        (fun i v =>
          if i &&& stride ≠ 0 then v.set i 0
          else v.set i (v.getD i 0 / M.ofReal (M.sqrt prob0)))
        (1 <<< qs.num_qubits) 0 qs.qubits })
  else
    (1, { qs with
      qubits := forLoop (1 <<< qs.num_qubits) 1
        (fun i v =>
          if i &&& stride ≠ 0 then v.set i (v.getD i 0 / M.ofReal (M.sqrt (1 - prob0)))
          else v.set i 0)
        (1 <<< qs.num_qubits) 0 qs.qubits })

/-- The amplitude that the Hadamard transform on the qubit of stride `s` puts at
index `p` of the array `old`: the scaled sum of the pair of `p` when `p` is the
lower index of its pair, the scaled difference when it is the upper one. -/
def hadamardValue {K : Type} [Field K] (f : K) (s : Nat) (old : List K) (p : Nat) : K :=
  if p % (2 * s) < s then f * (old.getD p 0 + old.getD (p + s) 0)
  else f * (old.getD (p - s) 0 - old.getD p 0)

/-- The other index of the pair of `p` for the qubit of stride `s`. -/
def partner (s p : Nat) : Nat :=
  if p % (2 * s) < s then p + s else p - s

/-- The sum of the squared magnitudes of the first `N` amplitudes of `v`. -/
def normSqSum (N : Nat) (v : List ℂ) : ℝ :=
  ∑ i ∈ Finset.range N, Complex.normSq (v.getD i 0)

/-- The sum of the squared magnitudes of the amplitudes of `v` at the indices
below `N` whose bit `q` is 0: the exact probability of outcome 0. -/
def prob0Sum (q N : Nat) (v : List ℂ) : ℝ :=
  ∑ i ∈ (Finset.range N).filter (fun i => i.testBit q = false),
    Complex.normSq (v.getD i 0)

/-- The states reachable from `init_quantum_system n` by a finite sequence of
calls of `hadamard`, `cnot` and `measure` with qubit indices below `n`,
distinct control and target, exact arithmetic and draws in `[0, 1)`. -/
inductive Reachable (n : Nat) : QuantumSystem ℂ → Prop
  | init (junk : Nat → ℂ) : Reachable n (init_quantum_system junk n)
  | step_hadamard (qs : QuantumSystem ℂ) (q : Nat) :
      Reachable n qs → q < n →
      Reachable n
        (hadamard (⟨Real.sqrt, Complex.ofReal, Complex.re, starRingEnd ℂ⟩ : CMath ℝ ℂ) qs q)
  | step_cnot (qs : QuantumSystem ℂ) (c t : Nat) :
      Reachable n qs → c < n → t < n → c ≠ t → Reachable n (cnot qs c t)
  | step_measure (qs : QuantumSystem ℂ) (q : Nat) (r : ℝ) :
      Reachable n qs → q < n → 0 ≤ r → r < 1 →
      Reachable n
        (measure (⟨Real.sqrt, Complex.ofReal, Complex.re, starRingEnd ℂ⟩ : CMath ℝ ℂ)
          qs q r).2

/-- The systems produced from `init_quantum_system n` by a finite sequence of
calls of `hadamard`, `cnot` and `measure` with qubit indices below `n`, in the
arithmetic `M` and with any draws. -/
inductive Produced {R K : Type} [LinearOrderedField R] [Field K] (M : CMath R K)
    (n : Nat) : QuantumSystem K → Prop
  | init (junk : Nat → K) : Produced M n (init_quantum_system junk n)
  | step_hadamard (qs : QuantumSystem K) (q : Nat) :
      Produced M n qs → q < n → Produced M n (hadamard M qs q)
  | step_cnot (qs : QuantumSystem K) (c t : Nat) :
      Produced M n qs → c < n → t < n → Produced M n (cnot qs c t)
  | step_measure (qs : QuantumSystem K) (q : Nat) (r : R) :
      Produced M n qs → q < n → Produced M n (measure M qs q r).2

/-- The sequence of the pairs `(pos0, pos1)` visited by the nested loops of
`hadamard` (lines 38-41), in the order of the visits. -/
def hadamardPairs (num_qubits qubit : Nat) : List (Nat × Nat) :=
  let stride := 1 <<< qubit
  let size := 1 <<< num_qubits
  forLoop size (1 <<< (qubit + 1))
    (fun i acc =>
      forLoop stride 1 (fun j acc => acc ++ [(i + j, i + j + stride)]) stride 0 acc)
    size 0 []

/-- The reads and writes of one iteration of `hadamard` (lines 43-47) on the
pair `pr = (pos0, pos1)`. -/
def hadamardPair {K : Type} [Field K] (factor : K) (pr : Nat × Nat) (v : List K) : List K :=
  let a := v.getD pr.1 0
  let b := v.getD pr.2 0
  (v.set pr.1 (factor * (a + b))).set pr.2 (factor * (a - b))

/-! ## Loop reasoning -/

/-- Invariant rule for `forLoop`: an invariant kept by the body holds at exit,
at an index in `[bound, bound + step)`, once the fuel covers the distance. -/
theorem forLoop_invariant {σ : Type} (bound step : Nat) (body : Nat → σ → σ)
    (Inv : Nat → σ → Prop)
    (hbody : ∀ i s, i < bound → Inv i s → Inv (i + step) (body i s)) :
    ∀ (fuel i : Nat) (s : σ), bound ≤ i + fuel * step → i < bound + step → Inv i s →
      ∃ j, bound ≤ j ∧ j < bound + step ∧ Inv j (forLoop bound step body fuel i s) := by
  intro fuel
  induction fuel with
  | zero =>
    intro i s hf hi hinv
    exact ⟨i, by simpa using hf, hi, by simpa [forLoop] using hinv⟩
  | succ fuel ih =>
    intro i s hf hi hinv
    by_cases hlt : i < bound
    · have h := ih (i + step) (body i s)
        (by rw [Nat.add_mul] at hf; omega) (by omega) (hbody i s hlt hinv)
      simpa [forLoop, hlt] using h
    · exact ⟨i, by omega, hi, by simpa [forLoop, hlt] using hinv⟩

/-- Reading a cell after a write: the written value at the written index when
that index is inside the array, and the previous content anywhere else. -/
theorem getD_set {K : Type} (v : List K) (i p : Nat) (a d : K) :
    (v.set i a).getD p d = if i = p ∧ i < v.length then a else v.getD p d := by
  simp only [List.getD_eq_getElem?_getD, List.getElem?_set]
  by_cases h : i = p
  · subst h
    by_cases h2 : i < v.length
    · simp [h2]
    · simp [h2, List.getElem?_eq_none (Nat.le_of_not_lt h2)]
  · simp [h]

/-- Two arrays of the same length with the same content are equal. -/
theorem ext_getD {K : Type} (v w : List K) (d : K) (hlen : v.length = w.length)
    (h : ∀ p, p < v.length → v.getD p d = w.getD p d) : v = w := by
  apply List.ext_getElem hlen
  intro p h1 h2
  have := h p h1
  simpa [List.getD_eq_getElem?_getD, List.getElem?_eq_getElem h1,
    List.getElem?_eq_getElem h2] using this

theorem one_shiftLeft_eq (n : Nat) : 1 <<< n = 2 ^ n := by
  simp [Nat.shiftLeft_eq]

/-- Two systems with the same array and the same qubit count are equal. -/
theorem qs_ext {K : Type} (a b : QuantumSystem K) (hq : a.qubits = b.qubits)
    (hn : a.num_qubits = b.num_qubits) : a = b := by
  cases a
  cases b
  simp only at hq hn
  rw [hq, hn]

/-- A unit-step loop whose iteration `i` rewrites cell `i` from its own content
rewrites every cell below the bound once and keeps the length. -/
theorem forLoop_pointwise {K : Type} (f : Nat → K → K) (d : K) (N : Nat) (v : List K) :
    (forLoop N 1 (fun i w => w.set i (f i (w.getD i d))) N 0 v).length = v.length ∧
    ∀ p, p < v.length →
      (forLoop N 1 (fun i w => w.set i (f i (w.getD i d))) N 0 v).getD p d
        = if p < N then f p (v.getD p d) else v.getD p d := by
  have h := forLoop_invariant N 1 (fun i w => w.set i (f i (w.getD i d)))
    (fun k w => w.length = v.length ∧ ∀ p, p < v.length →
      w.getD p d = if p < k then f p (v.getD p d) else v.getD p d)
    (by
      intro i w _ hinv
      obtain ⟨hl, hp⟩ := hinv
      refine ⟨by simp [hl], ?_⟩
      intro p hpl
      by_cases hip : i = p
      · subst hip
        rw [getD_set, if_pos ⟨rfl, by omega⟩, hp i hpl]
        simp
      · have : ¬ (i = p ∧ i < w.length) := fun h => hip h.1
        rw [getD_set, if_neg this, hp p hpl]
        by_cases h1 : p < i
        · simp [h1, Nat.lt_succ_of_lt h1]
        · have : ¬ p < i + 1 := by omega
          simp [h1, this])
    N 0 v (by simp) (by omega) ⟨rfl, fun p _ => by simp⟩
  obtain ⟨j, hj1, hj2, hl, hp⟩ := h
  have hj : j = N := by omega
  subst hj
  exact ⟨hl, hp⟩

/-! ## Construction -/

/-- The array built by `init_quantum_system`: `2 ^ n` cells, `1` in cell 0 and
`0` in the others. -/
theorem init_quantum_system_cells {K : Type} [Zero K] [One K] (junk : Nat → K) (n : Nat) :
    (init_quantum_system junk n).qubits.length = 2 ^ n ∧
    ∀ i, i < 2 ^ n →
      (init_quantum_system junk n).qubits[i]? = some (if i = 0 then 1 else 0) := by
  have h := forLoop_pointwise (fun i (_ : K) => if i = 0 then (1 : K) else 0) 0
    (1 <<< n) (malloc (1 <<< n) junk)
  have hm : (malloc (1 <<< n) junk).length = 2 ^ n := by
    simp [malloc, one_shiftLeft_eq]
  obtain ⟨hl, hp⟩ := h
  rw [hm] at hl hp
  refine ⟨hl, ?_⟩
  intro i hi
  have hi2 : i < (init_quantum_system junk n).qubits.length := by
    simpa [init_quantum_system, hl] using hi
  have h2 := hp i hi
  rw [if_pos (by rw [one_shiftLeft_eq]; exact hi)] at h2
  rw [List.getElem?_eq_getElem hi2]
  have h3 : (init_quantum_system junk n).qubits.getD i 0 = if i = 0 then 1 else 0 := h2
  rw [List.getD_eq_getElem?_getD, List.getElem?_eq_getElem hi2] at h3
  simpa using h3

/-- Claim C6. `init_quantum_system n` returns a system whose `num_qubits` is `n`
and whose amplitude array has length exactly `2 ^ n`, holds `1` at index 0 and
`0` at every index `i` with `1 ≤ i < 2 ^ n`, whatever the content of the
freshly allocated memory was. -/
theorem init_quantum_system_ground {K : Type} [Zero K] [One K] (junk : Nat → K) (n : Nat) :
    (init_quantum_system junk n).num_qubits = n ∧
    (init_quantum_system junk n).qubits.length = 2 ^ n ∧
    (init_quantum_system junk n).qubits[0]? = some 1 ∧
    ∀ i, 1 ≤ i → i < 2 ^ n → (init_quantum_system junk n).qubits[i]? = some 0 := by
  obtain ⟨hl, key⟩ := init_quantum_system_cells junk n
  refine ⟨rfl, hl, ?_, ?_⟩
  · simpa using key 0 (Nat.two_pow_pos n)
  · intro i h1 hi
    have : i ≠ 0 := by omega
    simpa [this] using key i hi

/-! ## Hadamard -/

/-- Reading after the two writes of one Hadamard iteration. -/
theorem getD_hadamardBody {K : Type} [Field K] (f : K) (s i j : Nat) (w : List K)
    (h1 : i + j + s < w.length) (hs : 0 < s) (p : Nat) :
    (hadamardBody f s i j w).getD p 0 =
      if p = i + j then f * (w.getD (i + j) 0 + w.getD (i + j + s) 0)
      else if p = i + j + s then f * (w.getD (i + j) 0 - w.getD (i + j + s) 0)
      else w.getD p 0 := by
  unfold hadamardBody
  simp only [getD_set, List.length_set]
  by_cases hp0 : p = i + j
  · subst hp0
    have : ¬ (i + j + s = i + j ∧ i + j + s < w.length) := by omega
    rw [if_neg this, if_pos ⟨rfl, by omega⟩, if_pos rfl]
  · by_cases hp1 : p = i + j + s
    · subst hp1
      rw [if_pos ⟨rfl, h1⟩, if_neg hp0, if_pos rfl]
    · have a1 : ¬ (i + j + s = p ∧ i + j + s < w.length) := fun h => hp1 h.1.symm
      have a2 : ¬ (i + j = p ∧ i + j < w.length) := fun h => hp0 h.1.symm
      rw [if_neg a1, if_neg a2, if_neg hp0, if_neg hp1]

/-- One pass of the inner loop of `hadamard` transforms the block of `2 * s`
cells starting at `i` and leaves every other cell as it was. -/
theorem hadamard_inner {K : Type} [Field K] (f : K) (s N i : Nat) (hs : 0 < s)
    (hi : (2 * s) ∣ i) (hiN : i + 2 * s ≤ N) (v w : List K) (hw : w.length = N)
    (hinv : ∀ p, p < N → w.getD p 0 = if p < i then hadamardValue f s v p else v.getD p 0) :
    (forLoop s 1 (hadamardBody f s i) s 0 w).length = N ∧
    ∀ p, p < N → (forLoop s 1 (hadamardBody f s i) s 0 w).getD p 0 =
      if p < i + 2 * s then hadamardValue f s v p else v.getD p 0 := by
  obtain ⟨k, hk⟩ := hi
  have h := forLoop_invariant s 1 (hadamardBody f s i)
    (fun j u => u.length = N ∧ ∀ p, p < N → u.getD p 0 =
      if p < i ∨ (i ≤ p ∧ p < i + j) ∨ (i + s ≤ p ∧ p < i + s + j)
      then hadamardValue f s v p else v.getD p 0)
    (by
      intro j u hj hu
      obtain ⟨hl, hp⟩ := hu
      refine ⟨by simp [hadamardBody, hl], ?_⟩
      intro p hpN
      rw [getD_hadamardBody f s i j u (by omega) hs p]
      have e0 := hp (i + j) (by omega)
      have e1 := hp (i + j + s) (by omega)
      rw [if_neg (by omega)] at e0 e1
      by_cases hp0 : p = i + j
      · subst hp0
        have hm : (i + j) % (2 * s) < s := by
          rw [hk, Nat.mul_add_mod, Nat.mod_eq_of_lt (by omega)]
          exact hj
        rw [if_pos rfl, if_pos (by omega), e0, e1]
        simp [hadamardValue, hm]
      · rw [if_neg hp0]
        by_cases hp1 : p = i + j + s
        · subst hp1
          have hm : ¬ (i + j + s) % (2 * s) < s := by
            rw [hk, Nat.add_assoc, Nat.mul_add_mod, Nat.mod_eq_of_lt (by omega)]
            omega
          rw [if_pos rfl, if_pos (by omega), e0, e1]
          simp [hadamardValue, hm]
        · rw [if_neg hp1, hp p hpN]
          by_cases c : p < i ∨ (i ≤ p ∧ p < i + j) ∨ (i + s ≤ p ∧ p < i + s + j)
          · rw [if_pos c, if_pos (by omega)]
          · rw [if_neg c, if_neg (by omega)])
    s 0 w (by simp) (by omega)
    ⟨hw, fun p hpN => by
      rw [hinv p hpN]
      by_cases c : p < i
      · rw [if_pos c, if_pos (Or.inl c)]
      · rw [if_neg c, if_neg (by omega)]⟩
  obtain ⟨j, hj1, hj2, hl, hp⟩ := h
  have hj : j = s := by omega
  subst hj
  refine ⟨hl, fun p hpN => ?_⟩
  rw [hp p hpN]
  by_cases c : p < i + 2 * j
  · rw [if_pos c, if_pos (by omega)]
  · rw [if_neg c, if_neg (by omega)]

/-- The nested loops of `hadamard` put `hadamardValue` in every cell. -/
theorem hadamard_loops {K : Type} [Field K] (f : K) (s N : Nat) (hs : 0 < s)
    (hN : (2 * s) ∣ N) (v : List K) (hv : v.length = N) :
    (forLoop N (2 * s) (fun i w => forLoop s 1 (hadamardBody f s i) s 0 w) N 0 v).length = N ∧
    ∀ p, p < N →
      (forLoop N (2 * s) (fun i w => forLoop s 1 (hadamardBody f s i) s 0 w) N 0 v).getD p 0
        = hadamardValue f s v p := by
  have h := forLoop_invariant N (2 * s)
    (fun i w => forLoop s 1 (hadamardBody f s i) s 0 w)
    (fun i w => (2 * s) ∣ i ∧ w.length = N ∧ ∀ p, p < N → w.getD p 0 =
      if p < i then hadamardValue f s v p else v.getD p 0)
    (by
      intro i w hi hinv
      obtain ⟨hd, hl, hp⟩ := hinv
      have hiN : i + 2 * s ≤ N := by
        obtain ⟨a, ha⟩ := hd
        obtain ⟨b, hb⟩ := hN
        rw [ha, hb] at hi
        have hab : a < b := lt_of_mul_lt_mul_left hi (Nat.zero_le _)
        have : 2 * s * (a + 1) ≤ 2 * s * b := Nat.mul_le_mul_left _ hab
        rw [ha, hb]
        rw [Nat.mul_add, Nat.mul_one] at this
        exact this
      obtain ⟨r1, r2⟩ := hadamard_inner f s N i hs hd hiN v w hl hp
      exact ⟨Dvd.dvd.add hd (dvd_refl _), r1, r2⟩)
    N 0 v
    (by
      have : N * 1 ≤ N * (2 * s) := Nat.mul_le_mul_left _ (by omega)
      omega)
    (by omega) ⟨dvd_zero _, hv, fun p _ => by simp⟩
  obtain ⟨j, hj1, _, _, hl, hp⟩ := h
  exact ⟨hl, fun p hpN => by rw [hp p hpN, if_pos (by omega)]⟩

/-- Bit `q` of `p` is clear exactly when `p` is in the lower half of its block
of `2 * 2 ^ q` indices. -/
theorem testBit_false_iff (p q : Nat) :
    p.testBit q = false ↔ p % (2 * 2 ^ q) < 2 ^ q := by
  have h2 : 2 * 2 ^ q = 2 ^ (q + 1) := by rw [pow_succ, Nat.mul_comm]
  have hlt : p % 2 ^ q < 2 ^ q := Nat.mod_lt _ (Nat.two_pow_pos q)
  rw [Nat.testBit_to_div_mod, h2, Nat.mod_pow_succ]
  rcases Nat.mod_two_eq_zero_or_one (p / 2 ^ q) with h | h
  · rw [h]
    simp [hlt]
  · rw [h]
    simp

/-- The upper index of a pair lies inside the array. -/
theorem pair_upper_lt (s N p : Nat) (hN : (2 * s) ∣ N) (hp : p < N)
    (hlow : p % (2 * s) < s) : p + s < N := by
  obtain ⟨b, hb⟩ := hN
  have hdm := Nat.div_add_mod p (2 * s)
  have hab : p / (2 * s) < b := by
    apply lt_of_mul_lt_mul_left _ (Nat.zero_le (2 * s))
    omega
  have : 2 * s * (p / (2 * s) + 1) ≤ 2 * s * b := Nat.mul_le_mul_left _ hab
  rw [Nat.mul_add, Nat.mul_one] at this
  omega

/-- The upper index of a pair is in the upper half of its block. -/
theorem pair_upper_mod (s p : Nat) (hlow : p % (2 * s) < s) :
    (p + s) % (2 * s) = p % (2 * s) + s := by
  rw [Nat.add_mod, Nat.mod_eq_of_lt (show s < 2 * s by omega), Nat.mod_eq_of_lt (by omega)]

theorem two_mul_pow_dvd (q n : Nat) (hq : q < n) : (2 * 2 ^ q) ∣ 2 ^ n := by
  have : 2 * 2 ^ q = 2 ^ (q + 1) := by rw [pow_succ, Nat.mul_comm]
  rw [this]
  exact Nat.pow_dvd_pow 2 hq

/-- The array after `hadamard`, for any scaling factor computed by the
environment: every cell holds its `hadamardValue`. -/
theorem hadamard_getD {R K : Type} [LinearOrderedField R] [Field K] (M : CMath R K)
    (qs : QuantumSystem K) (q : Nat) (hlen : qs.qubits.length = 2 ^ qs.num_qubits)
    (hq : q < qs.num_qubits) :
    (hadamard M qs q).num_qubits = qs.num_qubits ∧
    (hadamard M qs q).qubits.length = 2 ^ qs.num_qubits ∧
    ∀ p, p < 2 ^ qs.num_qubits → (hadamard M qs q).qubits.getD p 0 =
      hadamardValue (M.ofReal (1 / M.sqrt 2)) (2 ^ q) qs.qubits p := by
  have h := hadamard_loops (M.ofReal (1 / M.sqrt 2)) (2 ^ q) (2 ^ qs.num_qubits)
    (Nat.two_pow_pos q) (two_mul_pow_dvd q _ hq) qs.qubits hlen
  have e : (hadamard M qs q).qubits =
      forLoop (2 ^ qs.num_qubits) (2 * 2 ^ q)
        (fun i w => forLoop (2 ^ q) 1
          (hadamardBody (M.ofReal (1 / M.sqrt 2)) (2 ^ q) i) (2 ^ q) 0 w)
        (2 ^ qs.num_qubits) 0 qs.qubits := by
    simp only [hadamard, one_shiftLeft_eq, pow_succ, Nat.mul_comm]
  rw [e]
  exact ⟨rfl, h⟩

/-- Claim C1. Hadamard semantics over exact complex arithmetic: on an array of
length `2 ^ n` and a qubit `q < n`, `hadamard` keeps the length, and for every
index `p < 2 ^ n` whose bit `q` is 0 the partner `p + 2 ^ q` is inside the
array, the new amplitude at `p` is `(old[p] + old[p + 2^q]) / sqrt 2` and the
new amplitude at `p + 2 ^ q` is `(old[p] - old[p + 2^q]) / sqrt 2`. -/
theorem hadamard_semantics (qs : QuantumSystem ℂ) (q : Nat)
    (hlen : qs.qubits.length = 2 ^ qs.num_qubits) (hq : q < qs.num_qubits) :
    (hadamard (⟨Real.sqrt, Complex.ofReal, Complex.re, starRingEnd ℂ⟩ : CMath ℝ ℂ)
      qs q).qubits.length = 2 ^ qs.num_qubits ∧
    ∀ p, p < 2 ^ qs.num_qubits → p.testBit q = false →
      p + 2 ^ q < 2 ^ qs.num_qubits ∧
      (hadamard (⟨Real.sqrt, Complex.ofReal, Complex.re, starRingEnd ℂ⟩ : CMath ℝ ℂ)
        qs q).qubits.getD p 0
        = (qs.qubits.getD p 0 + qs.qubits.getD (p + 2 ^ q) 0) / (Real.sqrt 2 : ℂ) ∧
      (hadamard (⟨Real.sqrt, Complex.ofReal, Complex.re, starRingEnd ℂ⟩ : CMath ℝ ℂ)
        qs q).qubits.getD (p + 2 ^ q) 0
        = (qs.qubits.getD p 0 - qs.qubits.getD (p + 2 ^ q) 0) / (Real.sqrt 2 : ℂ) := by
  obtain ⟨_, hl, hp⟩ := hadamard_getD
    (⟨Real.sqrt, Complex.ofReal, Complex.re, starRingEnd ℂ⟩ : CMath ℝ ℂ) qs q hlen hq
  refine ⟨hl, fun p hpN hbit => ?_⟩
  have hlow := (testBit_false_iff p q).1 hbit
  have hup := pair_upper_lt (2 ^ q) _ p (two_mul_pow_dvd q _ hq) hpN hlow
  have hmod := pair_upper_mod (2 ^ q) p hlow
  refine ⟨hup, ?_, ?_⟩
  · rw [hp p hpN, hadamardValue, if_pos hlow]
    simp only [Complex.ofReal_div, Complex.ofReal_one]
    ring
  · rw [hp _ hup, hadamardValue, if_neg (by omega), Nat.add_sub_cancel]
    simp only [Complex.ofReal_div, Complex.ofReal_one]
    ring

/-- Witness of C1 on the one-qubit array `[1, 0]` and qubit 0. -/
theorem hadamard_semantics_witness :
    ([1, 0] : List ℂ).length = 2 ^ 1 ∧ 0 < 1 ∧
    (hadamard (⟨Real.sqrt, Complex.ofReal, Complex.re, starRingEnd ℂ⟩ : CMath ℝ ℂ)
      ⟨[1, 0], 1⟩ 0).qubits.getD 0 0 = ((1 : ℂ) + 0) / (Real.sqrt 2 : ℂ) :=
  ⟨rfl, by decide,
    ((hadamard_semantics ⟨[1, 0], 1⟩ 0 rfl (by decide)).2 0 (by decide) (by decide)).2.1⟩

/-! ## Controlled-NOT -/

/-- The test `i & (1 << c)` of the program succeeds exactly when bit `c` of `i`
is set. -/
theorem and_two_pow_ne_zero_iff (i c : Nat) : i &&& 2 ^ c ≠ 0 ↔ i.testBit c = true := by
  constructor
  · intro h
    by_contra hb
    apply h
    apply Nat.eq_of_testBit_eq
    intro j
    rw [Nat.testBit_and, Nat.testBit_two_pow, Nat.zero_testBit]
    by_cases hcj : c = j
    · subst hcj
      simp [hb]
    · simp [hcj]
  · intro hb h
    have : (i &&& 2 ^ c).testBit c = true := by
      rw [Nat.testBit_and, hb, Nat.testBit_two_pow_self]
      rfl
    rw [h, Nat.zero_testBit] at this
    exact Bool.false_ne_true this

/-- Flipping bit `t` does not change bit `c` when `c ≠ t`. -/
theorem testBit_xor_two_pow_of_ne (i c t : Nat) (hct : c ≠ t) :
    (i ^^^ 2 ^ t).testBit c = i.testBit c := by
  rw [Nat.testBit_xor, Nat.testBit_two_pow_of_ne (Ne.symm hct)]
  simp

/-- Flipping bit `t` changes bit `t`. -/
theorem testBit_xor_two_pow_self (i t : Nat) :
    (i ^^^ 2 ^ t).testBit t = !(i.testBit t) := by
  rw [Nat.testBit_xor, Nat.testBit_two_pow_self]
  simp

theorem xor_two_pow_ne (i t : Nat) : i ^^^ 2 ^ t ≠ i := by
  intro h
  have := testBit_xor_two_pow_self i t
  rw [h] at this
  cases hb : i.testBit t <;> simp [hb] at this

theorem xor_two_pow_lt (i t n : Nat) (hi : i < 2 ^ n) (ht : t < n) : i ^^^ 2 ^ t < 2 ^ n :=
  Nat.xor_lt_two_pow hi (Nat.pow_lt_pow_right (by decide) ht)

/-- Reading after the swap performed by one iteration of `cnot`. -/
theorem getD_swap {K : Type} [Zero K] (w : List K) (i j p : Nat) (hi : i < w.length)
    (hj : j < w.length) (hij : i ≠ j) :
    ((w.set i (w.getD j 0)).set j (w.getD i 0)).getD p 0 =
      if p = i then w.getD j 0 else if p = j then w.getD i 0 else w.getD p 0 := by
  simp only [getD_set, List.length_set]
  by_cases hpi : p = i
  · subst hpi
    have : ¬ (j = p ∧ j < w.length) := fun h => hij h.1.symm
    rw [if_neg this, if_pos ⟨rfl, hi⟩, if_pos rfl]
  · by_cases hpj : p = j
    · subst hpj
      rw [if_pos ⟨rfl, hj⟩, if_neg hpi, if_pos rfl]
    · have a1 : ¬ (j = p ∧ j < w.length) := fun h => hpj h.1.symm
      have a2 : ¬ (i = p ∧ i < w.length) := fun h => hpi h.1.symm
      rw [if_neg a1, if_neg a2, if_neg hpi, if_neg hpj]

/-- The loop of `cnot` for distinct control and target: a cell whose index has
the control bit set receives the content of the index with the target bit
flipped, every other cell keeps its content. -/
theorem cnot_loop {K : Type} [Zero K] (c t n : Nat) (hct : c ≠ t) (ht : t < n)
    (v : List K) (hv : v.length = 2 ^ n) :
    (forLoop (2 ^ n) 1 (cnotBody (2 ^ c) (2 ^ t)) (2 ^ n) 0 v).length = 2 ^ n ∧
    ∀ p, p < 2 ^ n →
      (forLoop (2 ^ n) 1 (cnotBody (2 ^ c) (2 ^ t)) (2 ^ n) 0 v).getD p 0
        = if p.testBit c = true then v.getD (p ^^^ 2 ^ t) 0 else v.getD p 0 := by
  have h := forLoop_invariant (2 ^ n) 1 (cnotBody (2 ^ c) (2 ^ t))
    (fun k w => w.length = 2 ^ n ∧ ∀ p, p < 2 ^ n → w.getD p 0 =
      if p.testBit c = true ∧ (p < k ∨ p ^^^ 2 ^ t < k) then v.getD (p ^^^ 2 ^ t) 0
      else v.getD p 0)
    (by
      intro k w hk hinv
      obtain ⟨hl, hp⟩ := hinv
      have hcond : ∀ p, p ≠ k → p ≠ k ^^^ 2 ^ t →
          ((p < k + 1 ∨ p ^^^ 2 ^ t < k + 1) ↔ (p < k ∨ p ^^^ 2 ^ t < k)) := by
        intro p h1 h2
        have h3 : p ^^^ 2 ^ t ≠ k := by
          intro h
          apply h2
          rw [← h, Nat.xor_cancel_right]
        omega
      have hkeep : ∀ p, p < 2 ^ n → ((p = k ∨ p = k ^^^ 2 ^ t) →
            (if p.testBit c = true ∧ (p < k ∨ p ^^^ 2 ^ t < k) then v.getD (p ^^^ 2 ^ t) 0
              else v.getD p 0) =
            (if p.testBit c = true ∧ (p < k + 1 ∨ p ^^^ 2 ^ t < k + 1)
              then v.getD (p ^^^ 2 ^ t) 0 else v.getD p 0)) →
          w.getD p 0 = if p.testBit c = true ∧ (p < k + 1 ∨ p ^^^ 2 ^ t < k + 1)
            then v.getD (p ^^^ 2 ^ t) 0 else v.getD p 0 := by
        intro p hpN hrest
        rw [hp p hpN]
        by_cases hpk : p = k ∨ p = k ^^^ 2 ^ t
        · exact hrest hpk
        · have := hcond p (fun h => hpk (Or.inl h)) (fun h => hpk (Or.inr h))
          simp only [this]
      by_cases hc : k &&& 2 ^ c ≠ 0
      · have hbit : k.testBit c = true := (and_two_pow_ne_zero_iff k c).1 hc
        have hbit2 : (k ^^^ 2 ^ t).testBit c = true := by
          rw [testBit_xor_two_pow_of_ne k c t hct]
          exact hbit
        by_cases hgt : k ^^^ 2 ^ t > k
        · have hbody : cnotBody (2 ^ c) (2 ^ t) k w =
              (w.set k (w.getD (k ^^^ 2 ^ t) 0)).set (k ^^^ 2 ^ t) (w.getD k 0) := by
            simp [cnotBody, hc, hgt]
          have htp : k ^^^ 2 ^ t < 2 ^ n := xor_two_pow_lt k t n hk ht
          rw [hbody]
          refine ⟨by simp [hl], fun p hpN => ?_⟩
          rw [getD_swap w k (k ^^^ 2 ^ t) p (by omega) (by omega) (by omega)]
          have e0 := hp k hk
          have e1 := hp (k ^^^ 2 ^ t) htp
          rw [if_neg (by omega)] at e0
          rw [if_neg (by rw [Nat.xor_cancel_right]; omega)] at e1
          by_cases hpk : p = k
          · subst hpk
            rw [if_pos rfl, e1, if_pos ⟨hbit, by omega⟩]
          · rw [if_neg hpk]
            by_cases hpt : p = k ^^^ 2 ^ t
            · subst hpt
              rw [if_pos rfl, e0, if_pos ⟨hbit2, by rw [Nat.xor_cancel_right]; omega⟩,
                Nat.xor_cancel_right]
            · rw [if_neg hpt, hp p hpN]
              simp only [hcond p hpk hpt]
        · have hbody : cnotBody (2 ^ c) (2 ^ t) k w = w := by
            simp [cnotBody, hc, hgt]
          have hne := xor_two_pow_ne k t
          rw [hbody]
          refine ⟨hl, fun p hpN => hkeep p hpN ?_⟩
          rintro (rfl | rfl)
          · rw [if_pos ⟨hbit, by omega⟩, if_pos ⟨hbit, by omega⟩]
          · rw [if_pos ⟨hbit2, by omega⟩, if_pos ⟨hbit2, by omega⟩]
      · have hbody : cnotBody (2 ^ c) (2 ^ t) k w = w := by
          simp [cnotBody, hc]
        have hbit : ¬ k.testBit c = true := fun h => hc ((and_two_pow_ne_zero_iff k c).2 h)
        have hbit2 : ¬ (k ^^^ 2 ^ t).testBit c = true := by
          rw [testBit_xor_two_pow_of_ne k c t hct]
          exact hbit
        rw [hbody]
        refine ⟨hl, fun p hpN => hkeep p hpN ?_⟩
        rintro (rfl | rfl)
        · rw [if_neg (fun h => hbit h.1), if_neg (fun h => hbit h.1)]
        · rw [if_neg (fun h => hbit2 h.1), if_neg (fun h => hbit2 h.1)])
    (2 ^ n) 0 v (by simp) (by omega) ⟨hv, fun p _ => by simp⟩
  obtain ⟨j, hj1, hj2, hl, hp⟩ := h
  refine ⟨hl, fun p hpN => ?_⟩
  rw [hp p hpN]
  by_cases hb : p.testBit c = true
  · rw [if_pos ⟨hb, by omega⟩, if_pos hb]
  · rw [if_neg (fun h => hb h.1), if_neg hb]

/-- Clearing a set bit gives a smaller index. -/
theorem xor_two_pow_lt_self (i c : Nat) (hb : i.testBit c = true) : i ^^^ 2 ^ c < i := by
  apply Nat.lt_of_testBit c
  · rw [testBit_xor_two_pow_self, hb]
    rfl
  · exact hb
  · intro j hj
    exact testBit_xor_two_pow_of_ne i j c (by omega)

/-- With equal control and target the loop of `cnot` performs no swap. -/
theorem cnot_loop_same {K : Type} [Zero K] (c N : Nat) (v : List K) :
    forLoop N 1 (cnotBody (2 ^ c) (2 ^ c)) N 0 v = v := by
  have h := forLoop_invariant N 1 (cnotBody (2 ^ c) (2 ^ c)) (fun _ w => w = v)
    (by
      intro k w _ hw
      subst hw
      by_cases hc : k &&& 2 ^ c ≠ 0
      · have hlt := xor_two_pow_lt_self k c ((and_two_pow_ne_zero_iff k c).1 hc)
        have : ¬ k ^^^ 2 ^ c > k := by omega
        simp [cnotBody, hc, this]
      · simp [cnotBody, hc])
    N 0 v (by simp) (by omega) rfl
  obtain ⟨_, _, _, h⟩ := h
  exact h

/-- The array after `cnot` with distinct control and target. -/
theorem cnot_getD {K : Type} [Zero K] (qs : QuantumSystem K) (c t : Nat)
    (hlen : qs.qubits.length = 2 ^ qs.num_qubits) (ht : t < qs.num_qubits) (hct : c ≠ t) :
    (cnot qs c t).num_qubits = qs.num_qubits ∧
    (cnot qs c t).qubits.length = 2 ^ qs.num_qubits ∧
    ∀ p, p < 2 ^ qs.num_qubits → (cnot qs c t).qubits.getD p 0 =
      if p.testBit c = true then qs.qubits.getD (p ^^^ 2 ^ t) 0 else qs.qubits.getD p 0 := by
  have e : (cnot qs c t).qubits =
      forLoop (2 ^ qs.num_qubits) 1 (cnotBody (2 ^ c) (2 ^ t)) (2 ^ qs.num_qubits) 0
        qs.qubits := by
    simp only [cnot, one_shiftLeft_eq]
  rw [e]
  exact ⟨rfl, cnot_loop c t qs.num_qubits hct ht qs.qubits hlen⟩

/-- Claim C2. `cnot` is the controlled-X permutation for every pair of distinct
qubits: on an array of length `2 ^ n`, with target `t < n` and control `c ≠ t`
(below or above `t`, adjacent or not), the length is kept, the amplitude at an
index `i` whose bit `c` is 1 becomes the old amplitude at `i XOR 2 ^ t` (an
index inside the array) and the amplitude at an index whose bit `c` is 0 is
unchanged.  The control index needs no bound for this to hold. -/
theorem cnot_semantics {K : Type} [Zero K] (qs : QuantumSystem K) (c t : Nat)
    (hlen : qs.qubits.length = 2 ^ qs.num_qubits) (ht : t < qs.num_qubits) (hct : c ≠ t) :
    (cnot qs c t).qubits.length = 2 ^ qs.num_qubits ∧
    ∀ i, i < 2 ^ qs.num_qubits →
      (i.testBit c = true → i ^^^ 2 ^ t < 2 ^ qs.num_qubits ∧
        (cnot qs c t).qubits.getD i 0 = qs.qubits.getD (i ^^^ 2 ^ t) 0) ∧
      (i.testBit c = false → (cnot qs c t).qubits.getD i 0 = qs.qubits.getD i 0) := by
  obtain ⟨_, hl, hp⟩ := cnot_getD qs c t hlen ht hct
  refine ⟨hl, fun i hi => ⟨fun hb => ⟨xor_two_pow_lt i t _ hi ht, ?_⟩, fun hb => ?_⟩⟩
  · rw [hp i hi, if_pos hb]
  · rw [hp i hi, if_neg (by simp [hb])]

/-- Witness of C2 on two qubits, control 0 and target 1: index 1 receives the
amplitude of index 3. -/
theorem cnot_semantics_witness :
    ([5, 6, 7, 8] : List ℚ).length = 2 ^ 2 ∧ 1 < 2 ∧ 0 ≠ 1 ∧
    (cnot (⟨[5, 6, 7, 8], 2⟩ : QuantumSystem ℚ) 0 1).qubits.getD 1 0 = 8 :=
  ⟨rfl, by decide, by decide,
    (((cnot_semantics (⟨[5, 6, 7, 8], 2⟩ : QuantumSystem ℚ) 0 1 rfl (by decide)
      (by decide)).2 1 (by decide)).1 (by decide)).2⟩

/-- Claim C10. CNOT involution: on an array of length `2 ^ n`, with `t < n` and
`c ≠ t`, applying `cnot c t` twice gives back exactly the system it started
from. -/
theorem cnot_involution {K : Type} [Zero K] (qs : QuantumSystem K) (c t : Nat)
    (hlen : qs.qubits.length = 2 ^ qs.num_qubits) (ht : t < qs.num_qubits) (hct : c ≠ t) :
    cnot (cnot qs c t) c t = qs := by
  obtain ⟨hn1, hl1, hp1⟩ := cnot_getD qs c t hlen ht hct
  obtain ⟨hn2, hl2, hp2⟩ := cnot_getD (cnot qs c t) c t (by rw [hn1]; exact hl1)
    (by rw [hn1]; exact ht) hct
  rw [hn1] at hl2 hp2
  have hq : (cnot (cnot qs c t) c t).qubits = qs.qubits := by
    apply ext_getD _ _ 0 (by rw [hl2, hlen])
    intro p hp
    rw [hl2] at hp
    rw [hp2 p hp]
    by_cases hb : p.testBit c = true
    · rw [if_pos hb, hp1 _ (xor_two_pow_lt p t _ hp ht),
        if_pos (by rw [testBit_xor_two_pow_of_ne p c t hct]; exact hb),
        Nat.xor_cancel_right]
    · rw [if_neg hb, hp1 p hp, if_neg hb]
  exact qs_ext _ _ hq rfl

/-- Witness of C10 on two qubits, control 0 and target 1. -/
theorem cnot_involution_witness :
    ([5, 6, 7, 8] : List ℚ).length = 2 ^ 2 ∧ 1 < 2 ∧ 0 ≠ 1 ∧
    cnot (cnot (⟨[5, 6, 7, 8], 2⟩ : QuantumSystem ℚ) 0 1) 0 1 = ⟨[5, 6, 7, 8], 2⟩ :=
  ⟨rfl, by decide, by decide,
    cnot_involution (⟨[5, 6, 7, 8], 2⟩ : QuantumSystem ℚ) 0 1 rfl (by decide) (by decide)⟩

/-- The index map of the controlled-X gate is its own inverse. -/
theorem cnotIndex_involutive (c t n : Nat) (hct : c ≠ t) (ht : t < n) :
    Function.Involutive (fun i : Fin (2 ^ n) =>
      if (i : Nat).testBit c = true
      then (⟨(i : Nat) ^^^ 2 ^ t, xor_two_pow_lt i t n i.isLt ht⟩ : Fin (2 ^ n)) else i) := by
  intro i
  by_cases hb : (i : Nat).testBit c = true
  · have hb2 : ((i : Nat) ^^^ 2 ^ t).testBit c = true := by
      rw [testBit_xor_two_pow_of_ne _ c t hct]
      exact hb
    apply Fin.ext
    simp [hb, hb2, Nat.xor_cancel_right]
  · simp [hb]

/-- Claim C8. `cnot` permutes the amplitudes: on an array of length `2 ^ n` and
for all `c, t < n` (equal or not) the length is kept and there is a bijection
`s` of the indices below `2 ^ n` such that the new amplitude at every index
`i` is the old amplitude at `s i`. -/
theorem cnot_permutation {K : Type} [Zero K] (qs : QuantumSystem K) (c t : Nat)
    (hlen : qs.qubits.length = 2 ^ qs.num_qubits) (ht : t < qs.num_qubits) :
    (cnot qs c t).qubits.length = 2 ^ qs.num_qubits ∧
    ∃ s : Equiv.Perm (Fin (2 ^ qs.num_qubits)), ∀ i : Fin (2 ^ qs.num_qubits),
      (cnot qs c t).qubits[(i : Nat)]? = qs.qubits[(s i : Nat)]? := by
  by_cases hct : c = t
  · subst hct
    have e : (cnot qs c c).qubits = qs.qubits := by
      simp only [cnot, one_shiftLeft_eq]
      exact cnot_loop_same c _ qs.qubits
    rw [e]
    exact ⟨hlen, Equiv.refl _, fun i => rfl⟩
  · obtain ⟨_, hl, hp⟩ := cnot_getD qs c t hlen ht hct
    refine ⟨hl, (cnotIndex_involutive c t qs.num_qubits hct ht).toPerm _, fun i => ?_⟩
    have h1 : (i : Nat) < (cnot qs c t).qubits.length := by rw [hl]; exact i.isLt
    have key : ∀ (v : List K) (j : Nat), j < v.length → v[j]? = some (v.getD j 0) := by
      intro v j hj
      simp [List.getD_eq_getElem?_getD, List.getElem?_eq_getElem hj]
    rw [key _ _ h1, key _ _ (by rw [hlen]; exact Fin.isLt _), hp i i.isLt]
    by_cases hb : (i : Nat).testBit c = true
    · simp [Function.Involutive.toPerm, hb]
    · simp [Function.Involutive.toPerm, hb]

/-- Witness of C8 on two qubits with equal control and target. -/
theorem cnot_permutation_witness :
    ([5, 6, 7, 8] : List ℚ).length = 2 ^ 2 ∧ 1 < 2 ∧
    ∃ s : Equiv.Perm (Fin (2 ^ 2)), ∀ i : Fin (2 ^ 2),
      (cnot (⟨[5, 6, 7, 8], 2⟩ : QuantumSystem ℚ) 1 1).qubits[(i : Nat)]?
        = ([5, 6, 7, 8] : List ℚ)[(s i : Nat)]? :=
  ⟨rfl, by decide,
    (cnot_permutation (⟨[5, 6, 7, 8], 2⟩ : QuantumSystem ℚ) 1 1 rfl (by decide)).2⟩

/-! ## Measurement -/

/-- A cell inside the array holds the value that a defaulted read returns. -/
theorem getElem?_eq_some_getD {K : Type} (v : List K) (j : Nat) (d : K) (hj : j < v.length) :
    v[j]? = some (v.getD j d) := by
  simp [List.getD_eq_getElem?_getD, List.getElem?_eq_getElem hj]

/-- The first loop of `measure` adds up `creal (a * conj a)` over the indices
below `2 ^ n` whose bit `q` is 0. -/
theorem measureProb0_eq_sum {R K : Type} [LinearOrderedField R] [Field K] (M : CMath R K)
    (qs : QuantumSystem K) (q : Nat) :
    measureProb0 M qs q = ∑ i ∈ Finset.range (2 ^ qs.num_qubits),
      if i.testBit q = true then 0
      else M.creal (qs.qubits.getD i 0 * M.conj (qs.qubits.getD i 0)) := by
  have h := forLoop_invariant (2 ^ qs.num_qubits) 1
    (fun i prob0 =>
      if i &&& 2 ^ q = 0 then
        prob0 + M.creal (qs.qubits.getD i 0 * M.conj (qs.qubits.getD i 0))
      else prob0)
    (fun k acc => acc = ∑ i ∈ Finset.range k,
      if i.testBit q = true then 0
      else M.creal (qs.qubits.getD i 0 * M.conj (qs.qubits.getD i 0)))
    (by
      intro k acc _ hacc
      rw [Finset.sum_range_succ, ← hacc]
      beta_reduce
      by_cases hb : k.testBit q = true
      · have hc : k &&& 2 ^ q ≠ 0 := (and_two_pow_ne_zero_iff k q).2 hb
        rw [if_neg hc, if_pos hb, add_zero]
      · have hc : k &&& 2 ^ q = 0 := by
          by_contra hc
          exact hb ((and_two_pow_ne_zero_iff k q).1 hc)
        rw [if_pos hc, if_neg hb])
    (2 ^ qs.num_qubits) 0 0 (by simp) (Nat.succ_pos _) (by simp)
  obtain ⟨j, hj1, hj2, hj⟩ := h
  have : j = 2 ^ qs.num_qubits := by omega
  subst this
  simpa only [measureProb0, one_shiftLeft_eq] using hj

/-- The outcome and the array after `measure`, in any arithmetic: outcome 0
exactly when the draw is below `prob0`, the cells of the other branch zeroed
and the cells of the selected branch divided by the square root of the
probability of that branch. -/
theorem measure_getD {R K : Type} [LinearOrderedField R] [Field K] (M : CMath R K)
    (qs : QuantumSystem K) (q : Nat) (r : R)
    (hlen : qs.qubits.length = 2 ^ qs.num_qubits) :
    (measure M qs q r).1 = (if r < measureProb0 M qs q then 0 else 1) ∧
    (measure M qs q r).2.num_qubits = qs.num_qubits ∧
    (measure M qs q r).2.qubits.length = 2 ^ qs.num_qubits ∧
    ∀ p, p < 2 ^ qs.num_qubits → (measure M qs q r).2.qubits.getD p 0 =
      if r < measureProb0 M qs q then
        (if p.testBit q = true then 0
          else qs.qubits.getD p 0 / M.ofReal (M.sqrt (measureProb0 M qs q)))
      else
        (if p.testBit q = true
          then qs.qubits.getD p 0 / M.ofReal (M.sqrt (1 - measureProb0 M qs q))
          else 0) := by
  by_cases hr : r < measureProb0 M qs q
  · have hbody : (fun (i : Nat) (v : List K) =>
          if i &&& 2 ^ q ≠ 0 then v.set i 0
          else v.set i (v.getD i 0 / M.ofReal (M.sqrt (measureProb0 M qs q)))) =
        (fun i v => v.set i ((fun (i : Nat) (a : K) =>
          if i.testBit q = true then 0
          else a / M.ofReal (M.sqrt (measureProb0 M qs q))) i (v.getD i 0))) := by
      funext i v
      by_cases hb : i.testBit q = true
      · rw [if_pos ((and_two_pow_ne_zero_iff i q).2 hb)]
        simp [hb]
      · rw [if_neg (fun h => hb ((and_two_pow_ne_zero_iff i q).1 h))]
        simp [hb]
    have e : measure M qs q r = (0, { qs with
        qubits := forLoop (2 ^ qs.num_qubits) 1
          (fun i v => v.set i ((fun (i : Nat) (a : K) =>
            if i.testBit q = true then 0
            else a / M.ofReal (M.sqrt (measureProb0 M qs q))) i (v.getD i 0)))
          (2 ^ qs.num_qubits) 0 qs.qubits }) := by
      simp only [measure, if_pos hr, one_shiftLeft_eq, hbody]
    obtain ⟨hl, hp⟩ := forLoop_pointwise (fun (i : Nat) (a : K) =>
      if i.testBit q = true then 0
      else a / M.ofReal (M.sqrt (measureProb0 M qs q))) 0 (2 ^ qs.num_qubits) qs.qubits
    rw [e]
    refine ⟨by simp [hr], rfl, hl.trans hlen, fun p hpN => ?_⟩
    rw [if_pos hr]
    have := hp p (by rw [hlen]; exact hpN)
    rw [if_pos hpN] at this
    exact this
  · have hbody : (fun (i : Nat) (v : List K) =>
          if i &&& 2 ^ q ≠ 0
          then v.set i (v.getD i 0 / M.ofReal (M.sqrt (1 - measureProb0 M qs q)))
          else v.set i 0) =
        (fun i v => v.set i ((fun (i : Nat) (a : K) =>
          if i.testBit q = true then a / M.ofReal (M.sqrt (1 - measureProb0 M qs q))
          else 0) i (v.getD i 0))) := by
      funext i v
      by_cases hb : i.testBit q = true
      · rw [if_pos ((and_two_pow_ne_zero_iff i q).2 hb)]
        simp [hb]
      · rw [if_neg (fun h => hb ((and_two_pow_ne_zero_iff i q).1 h))]
        simp [hb]
    have e : measure M qs q r = (1, { qs with
        qubits := forLoop (2 ^ qs.num_qubits) 1
          (fun i v => v.set i ((fun (i : Nat) (a : K) =>
            if i.testBit q = true then a / M.ofReal (M.sqrt (1 - measureProb0 M qs q))
            else 0) i (v.getD i 0)))
          (2 ^ qs.num_qubits) 0 qs.qubits }) := by
      simp only [measure, if_neg hr, one_shiftLeft_eq, hbody]
    obtain ⟨hl, hp⟩ := forLoop_pointwise (fun (i : Nat) (a : K) =>
      if i.testBit q = true then a / M.ofReal (M.sqrt (1 - measureProb0 M qs q))
      else 0) 0 (2 ^ qs.num_qubits) qs.qubits
    rw [e]
    refine ⟨by simp [hr], rfl, hl.trans hlen, fun p hpN => ?_⟩
    rw [if_neg hr]
    have := hp p (by rw [hlen]; exact hpN)
    rw [if_pos hpN] at this
    exact this

/-- Over exact arithmetic the probability computed by `measure` is the sum of
the squared magnitudes at the indices whose bit `q` is 0. -/
theorem measureProb0_exact (qs : QuantumSystem ℂ) (q : Nat) :
    measureProb0 (⟨Real.sqrt, Complex.ofReal, Complex.re, starRingEnd ℂ⟩ : CMath ℝ ℂ) qs q
      = prob0Sum q (2 ^ qs.num_qubits) qs.qubits := by
  rw [measureProb0_eq_sum, prob0Sum, Finset.sum_filter]
  apply Finset.sum_congr rfl
  intro i _
  by_cases hb : i.testBit q = true
  · simp [hb]
  · have hb2 : i.testBit q = false := by simpa using hb
    simp [hb2, Complex.mul_conj]

/-! ## Norms -/

/-- An index in the upper half of its block is at least `s`, and the lower
index of its pair is in the lower half. -/
theorem pair_lower (s p : Nat) (hs : 0 < s) (hhigh : ¬ p % (2 * s) < s) :
    s ≤ p ∧ (p - s) % (2 * s) = p % (2 * s) - s := by
  have hdm := Nat.div_add_mod p (2 * s)
  have hr : p % (2 * s) < 2 * s := Nat.mod_lt _ (by omega)
  have hle : s ≤ p := by
    have := Nat.mod_le p (2 * s)
    omega
  refine ⟨hle, ?_⟩
  have e : p - s = 2 * s * (p / (2 * s)) + (p % (2 * s) - s) := by omega
  rw [e, Nat.mul_add_mod, Nat.mod_eq_of_lt (by omega)]

theorem partner_lt (s N p : Nat) (hs : 0 < s) (hN : (2 * s) ∣ N) (hp : p < N) :
    partner s p < N := by
  unfold partner
  by_cases h : p % (2 * s) < s
  · rw [if_pos h]
    exact pair_upper_lt s N p hN hp h
  · rw [if_neg h]
    omega

theorem partner_partner (s p : Nat) (hs : 0 < s) : partner s (partner s p) = p := by
  unfold partner
  by_cases h : p % (2 * s) < s
  · rw [if_pos h, pair_upper_mod s p h, if_neg (by omega), Nat.add_sub_cancel]
  · obtain ⟨h1, h2⟩ := pair_lower s p hs h
    have hr : p % (2 * s) < 2 * s := Nat.mod_lt _ (by omega)
    rw [if_neg h, h2, if_pos (by omega)]
    omega

/-- A sum over the indices below `N` is unchanged by exchanging the two
indices of every pair. -/
theorem sum_partner (s N : Nat) (hs : 0 < s) (hN : (2 * s) ∣ N) (g : Nat → ℝ) :
    ∑ p ∈ Finset.range N, g (partner s p) = ∑ p ∈ Finset.range N, g p := by
  apply Finset.sum_nbij' (partner s) (partner s)
  · intro a ha
    exact Finset.mem_range.2 (partner_lt s N a hs hN (Finset.mem_range.1 ha))
  · intro a ha
    exact Finset.mem_range.2 (partner_lt s N a hs hN (Finset.mem_range.1 ha))
  · intro a _
    exact partner_partner s a hs
  · intro a _
    exact partner_partner s a hs
  · intro a _
    rfl

/-- The two amplitudes of a transformed pair have the squared magnitudes of
the two original amplitudes, when the squared magnitude of the factor is 1/2. -/
theorem normSq_pair (f a b : ℂ) (hf : Complex.normSq f * 2 = 1) :
    Complex.normSq (f * (a + b)) + Complex.normSq (f * (a - b))
      = Complex.normSq a + Complex.normSq b := by
  rw [Complex.normSq_mul, Complex.normSq_mul, Complex.normSq_add, Complex.normSq_sub]
  linear_combination (Complex.normSq a + Complex.normSq b) * hf

/-- The Hadamard values at an index and at its partner have together the
squared magnitude of the two original amplitudes. -/
theorem normSq_hadamardValue_pair (f : ℂ) (hf : Complex.normSq f * 2 = 1) (s : Nat)
    (hs : 0 < s) (v : List ℂ) (p : Nat) :
    Complex.normSq (hadamardValue f s v p) + Complex.normSq (hadamardValue f s v (partner s p))
      = Complex.normSq (v.getD p 0) + Complex.normSq (v.getD (partner s p) 0) := by
  unfold partner
  by_cases h : p % (2 * s) < s
  · have hm := pair_upper_mod s p h
    rw [if_pos h]
    simp only [hadamardValue]
    rw [if_pos h, if_neg (by omega), Nat.add_sub_cancel]
    exact normSq_pair f _ _ hf
  · obtain ⟨h1, h2⟩ := pair_lower s p hs h
    have hr : p % (2 * s) < 2 * s := Nat.mod_lt _ (by omega)
    rw [if_neg h]
    simp only [hadamardValue]
    rw [if_neg h, if_pos (by omega), Nat.sub_add_cancel h1]
    rw [add_comm, normSq_pair f _ _ hf, add_comm]

/-- The Hadamard values have the same sum of squared magnitudes as the
original amplitudes. -/
theorem sum_normSq_hadamardValue (f : ℂ) (hf : Complex.normSq f * 2 = 1) (s N : Nat)
    (hs : 0 < s) (hN : (2 * s) ∣ N) (v : List ℂ) :
    ∑ p ∈ Finset.range N, Complex.normSq (hadamardValue f s v p)
      = ∑ p ∈ Finset.range N, Complex.normSq (v.getD p 0) := by
  have h1 := sum_partner s N hs hN (fun p => Complex.normSq (hadamardValue f s v p))
  have h2 := sum_partner s N hs hN (fun p => Complex.normSq (v.getD p 0))
  have h3 : ∑ p ∈ Finset.range N, (Complex.normSq (hadamardValue f s v p)
        + Complex.normSq (hadamardValue f s v (partner s p)))
      = ∑ p ∈ Finset.range N, (Complex.normSq (v.getD p 0)
        + Complex.normSq (v.getD (partner s p) 0)) :=
    Finset.sum_congr rfl (fun p _ => normSq_hadamardValue_pair f hf s hs v p)
  rw [Finset.sum_add_distrib, Finset.sum_add_distrib] at h3
  simp only at h1 h2
  linarith

/-- The factor `1 / sqrt 2` of `hadamard` has squared magnitude 1/2. -/
theorem normSq_factor : Complex.normSq (Complex.ofReal (1 / Real.sqrt 2)) * 2 = 1 := by
  rw [Complex.normSq_ofReal]
  have h : Real.sqrt 2 * Real.sqrt 2 = 2 := Real.mul_self_sqrt (by norm_num)
  have hne : Real.sqrt 2 ≠ 0 := by
    intro h0
    rw [h0] at h
    norm_num at h
  field_simp

/-- The sum of the squared magnitudes is the same before and after `hadamard`. -/
theorem hadamard_normSqSum (qs : QuantumSystem ℂ) (q : Nat)
    (hlen : qs.qubits.length = 2 ^ qs.num_qubits) (hq : q < qs.num_qubits) :
    normSqSum (2 ^ qs.num_qubits)
      (hadamard (⟨Real.sqrt, Complex.ofReal, Complex.re, starRingEnd ℂ⟩ : CMath ℝ ℂ)
        qs q).qubits
      = normSqSum (2 ^ qs.num_qubits) qs.qubits := by
  obtain ⟨_, _, hp⟩ := hadamard_getD
    (⟨Real.sqrt, Complex.ofReal, Complex.re, starRingEnd ℂ⟩ : CMath ℝ ℂ) qs q hlen hq
  unfold normSqSum
  rw [← sum_normSq_hadamardValue (Complex.ofReal (1 / Real.sqrt 2)) normSq_factor (2 ^ q)
    (2 ^ qs.num_qubits) (Nat.two_pow_pos q) (two_mul_pow_dvd q _ hq) qs.qubits]
  apply Finset.sum_congr rfl
  intro p hpN
  rw [hp p (Finset.mem_range.1 hpN)]

/-- Claim C7. `hadamard` preserves the norm: over exact arithmetic, on any array
of length `2 ^ n` (normalized or not) and any qubit `q < n`, the sum of the
squared magnitudes of the `2 ^ n` amplitudes after `hadamard` equals the sum
before it. -/
theorem hadamard_preserves_norm (qs : QuantumSystem ℂ) (q : Nat)
    (hlen : qs.qubits.length = 2 ^ qs.num_qubits) (hq : q < qs.num_qubits) :
    normSqSum (2 ^ qs.num_qubits)
      (hadamard (⟨Real.sqrt, Complex.ofReal, Complex.re, starRingEnd ℂ⟩ : CMath ℝ ℂ)
        qs q).qubits
      = normSqSum (2 ^ qs.num_qubits) qs.qubits :=
  hadamard_normSqSum qs q hlen hq

/-- Witness of C7 on the one-qubit array `[1, 0]`, qubit 0. -/
theorem hadamard_preserves_norm_witness :
    ([1, 0] : List ℂ).length = 2 ^ 1 ∧ 0 < 1 ∧
    normSqSum (2 ^ 1)
      (hadamard (⟨Real.sqrt, Complex.ofReal, Complex.re, starRingEnd ℂ⟩ : CMath ℝ ℂ)
        ⟨[1, 0], 1⟩ 0).qubits
      = normSqSum (2 ^ 1) [1, 0] :=
  ⟨rfl, by decide, hadamard_preserves_norm ⟨[1, 0], 1⟩ 0 rfl (by decide)⟩

/-- Applying the Hadamard values twice gives back the original amplitudes,
when the square of the factor is 1/2. -/
theorem hadamardValue_twice {K : Type} [Field K] (f : K) (hf : f * f * 2 = 1) (s N : Nat)
    (hs : 0 < s) (hN : (2 * s) ∣ N) (v w : List K)
    (hw : ∀ p, p < N → w.getD p 0 = hadamardValue f s v p) (p : Nat) (hp : p < N) :
    hadamardValue f s w p = v.getD p 0 := by
  by_cases h : p % (2 * s) < s
  · have hm := pair_upper_mod s p h
    have hup := pair_upper_lt s N p hN hp h
    rw [hadamardValue, if_pos h, hw p hp, hw _ hup, hadamardValue, if_pos h,
      hadamardValue, if_neg (by omega), Nat.add_sub_cancel]
    linear_combination (v.getD p 0) * hf
  · obtain ⟨h1, h2⟩ := pair_lower s p hs h
    have hr : p % (2 * s) < 2 * s := Nat.mod_lt _ (by omega)
    rw [hadamardValue, if_neg h, hw p hp, hw _ (by omega), hadamardValue, if_pos (by omega),
      hadamardValue, if_neg h, Nat.sub_add_cancel h1]
    linear_combination (v.getD p 0) * hf

/-- The square of the factor `1 / sqrt 2` of `hadamard` is 1/2. -/
theorem factor_mul_self :
    Complex.ofReal (1 / Real.sqrt 2) * Complex.ofReal (1 / Real.sqrt 2) * 2 = 1 := by
  have h := normSq_factor
  rw [Complex.normSq_ofReal] at h
  have h2 : Complex.ofReal (1 / Real.sqrt 2 * (1 / Real.sqrt 2) * 2) = Complex.ofReal 1 := by
    rw [h]
  simpa using h2

/-- Claim C9. Hadamard involution: over exact arithmetic, on an array of length
`2 ^ n` and a qubit `k < n`, applying `hadamard k` twice in succession gives
back exactly the system it started from. -/
theorem hadamard_involution (qs : QuantumSystem ℂ) (k : Nat)
    (hlen : qs.qubits.length = 2 ^ qs.num_qubits) (hk : k < qs.num_qubits) :
    hadamard (⟨Real.sqrt, Complex.ofReal, Complex.re, starRingEnd ℂ⟩ : CMath ℝ ℂ)
      (hadamard (⟨Real.sqrt, Complex.ofReal, Complex.re, starRingEnd ℂ⟩ : CMath ℝ ℂ) qs k) k
      = qs := by
  obtain ⟨hn1, hl1, hp1⟩ := hadamard_getD
    (⟨Real.sqrt, Complex.ofReal, Complex.re, starRingEnd ℂ⟩ : CMath ℝ ℂ) qs k hlen hk
  obtain ⟨hn2, hl2, hp2⟩ := hadamard_getD
    (⟨Real.sqrt, Complex.ofReal, Complex.re, starRingEnd ℂ⟩ : CMath ℝ ℂ)
    (hadamard (⟨Real.sqrt, Complex.ofReal, Complex.re, starRingEnd ℂ⟩ : CMath ℝ ℂ) qs k) k
    (by rw [hn1]; exact hl1) (by rw [hn1]; exact hk)
  rw [hn1] at hl2 hp2
  have hq : (hadamard (⟨Real.sqrt, Complex.ofReal, Complex.re, starRingEnd ℂ⟩ : CMath ℝ ℂ)
      (hadamard (⟨Real.sqrt, Complex.ofReal, Complex.re, starRingEnd ℂ⟩ : CMath ℝ ℂ) qs k)
        k).qubits = qs.qubits := by
    apply ext_getD _ _ 0 (by rw [hl2, hlen])
    intro p hp
    rw [hl2] at hp
    rw [hp2 p hp]
    exact hadamardValue_twice _ factor_mul_self (2 ^ k) (2 ^ qs.num_qubits)
      (Nat.two_pow_pos k) (two_mul_pow_dvd k _ hk) qs.qubits _ hp1 p hp
  exact qs_ext _ _ hq rfl

/-- Witness of C9 on the one-qubit array `[1, 0]`, qubit 0. -/
theorem hadamard_involution_witness :
    ([1, 0] : List ℂ).length = 2 ^ 1 ∧ 0 < 1 ∧
    hadamard (⟨Real.sqrt, Complex.ofReal, Complex.re, starRingEnd ℂ⟩ : CMath ℝ ℂ)
      (hadamard (⟨Real.sqrt, Complex.ofReal, Complex.re, starRingEnd ℂ⟩ : CMath ℝ ℂ)
        ⟨[1, 0], 1⟩ 0) 0
      = ⟨[1, 0], 1⟩ :=
  ⟨rfl, by decide, hadamard_involution ⟨[1, 0], 1⟩ 0 rfl (by decide)⟩

/-! ## Measurement and normalization -/

/-- The outcome and the array after `measure` over exact arithmetic. -/
theorem measure_exact (qs : QuantumSystem ℂ) (q : Nat) (r : ℝ)
    (hlen : qs.qubits.length = 2 ^ qs.num_qubits) :
    (measure (⟨Real.sqrt, Complex.ofReal, Complex.re, starRingEnd ℂ⟩ : CMath ℝ ℂ)
      qs q r).1 = (if r < prob0Sum q (2 ^ qs.num_qubits) qs.qubits then 0 else 1) ∧
    (measure (⟨Real.sqrt, Complex.ofReal, Complex.re, starRingEnd ℂ⟩ : CMath ℝ ℂ)
      qs q r).2.num_qubits = qs.num_qubits ∧
    (measure (⟨Real.sqrt, Complex.ofReal, Complex.re, starRingEnd ℂ⟩ : CMath ℝ ℂ)
      qs q r).2.qubits.length = 2 ^ qs.num_qubits ∧
    ∀ p, p < 2 ^ qs.num_qubits →
      (measure (⟨Real.sqrt, Complex.ofReal, Complex.re, starRingEnd ℂ⟩ : CMath ℝ ℂ)
        qs q r).2.qubits.getD p 0 =
      if r < prob0Sum q (2 ^ qs.num_qubits) qs.qubits then
        (if p.testBit q = true then 0
          else qs.qubits.getD p 0 /
            (Real.sqrt (prob0Sum q (2 ^ qs.num_qubits) qs.qubits) : ℂ))
      else
        (if p.testBit q = true
          then qs.qubits.getD p 0 /
            (Real.sqrt (1 - prob0Sum q (2 ^ qs.num_qubits) qs.qubits) : ℂ)
          else 0) := by
  have h := measure_getD
    (⟨Real.sqrt, Complex.ofReal, Complex.re, starRingEnd ℂ⟩ : CMath ℝ ℂ) qs q r hlen
  simp only [measureProb0_exact] at h
  exact h

theorem prob0Sum_eq_sum_ite (q N : Nat) (v : List ℂ) :
    prob0Sum q N v = ∑ i ∈ Finset.range N,
      if i.testBit q = true then 0 else Complex.normSq (v.getD i 0) := by
  rw [prob0Sum, Finset.sum_filter]
  apply Finset.sum_congr rfl
  intro i _
  cases hb : i.testBit q <;> simp

theorem prob0Sum_nonneg (q N : Nat) (v : List ℂ) : 0 ≤ prob0Sum q N v := by
  unfold prob0Sum
  exact Finset.sum_nonneg (fun i _ => Complex.normSq_nonneg _)

/-- The total squared magnitude is the part at the indices with bit `q` clear
plus the part at the indices with bit `q` set. -/
theorem normSqSum_split (q N : Nat) (v : List ℂ) :
    normSqSum N v = prob0Sum q N v + ∑ i ∈ Finset.range N,
      if i.testBit q = true then Complex.normSq (v.getD i 0) else 0 := by
  rw [prob0Sum_eq_sum_ite, normSqSum, ← Finset.sum_add_distrib]
  apply Finset.sum_congr rfl
  intro i _
  cases hb : i.testBit q <;> simp

/-- The squared magnitude of an amplitude divided by the square root of a
nonnegative real. -/
theorem normSq_div_sqrt (a : ℂ) (y : ℝ) (hy : 0 ≤ y) :
    Complex.normSq (a / (Real.sqrt y : ℂ)) = Complex.normSq a / y := by
  rw [Complex.normSq_div, Complex.normSq_ofReal, Real.mul_self_sqrt hy]

/-- After `measure` on a normalized array with a draw in `[0, 1)` the array is
normalized again. -/
theorem measure_normSqSum (qs : QuantumSystem ℂ) (q : Nat) (r : ℝ)
    (hlen : qs.qubits.length = 2 ^ qs.num_qubits)
    (hnorm : normSqSum (2 ^ qs.num_qubits) qs.qubits = 1) (hr0 : 0 ≤ r) (hr1 : r < 1) :
    normSqSum (2 ^ qs.num_qubits)
      (measure (⟨Real.sqrt, Complex.ofReal, Complex.re, starRingEnd ℂ⟩ : CMath ℝ ℂ)
        qs q r).2.qubits = 1 := by
  obtain ⟨_, _, _, hp⟩ := measure_exact qs q r hlen
  have hsplit := normSqSum_split q (2 ^ qs.num_qubits) qs.qubits
  have h0 := prob0Sum_eq_sum_ite q (2 ^ qs.num_qubits) qs.qubits
  rw [hnorm] at hsplit
  by_cases hr : r < prob0Sum q (2 ^ qs.num_qubits) qs.qubits
  · have hpos : 0 < prob0Sum q (2 ^ qs.num_qubits) qs.qubits := lt_of_le_of_lt hr0 hr
    have e : normSqSum (2 ^ qs.num_qubits)
        (measure (⟨Real.sqrt, Complex.ofReal, Complex.re, starRingEnd ℂ⟩ : CMath ℝ ℂ)
          qs q r).2.qubits
        = ∑ i ∈ Finset.range (2 ^ qs.num_qubits),
            (if i.testBit q = true then 0 else Complex.normSq (qs.qubits.getD i 0))
              / prob0Sum q (2 ^ qs.num_qubits) qs.qubits := by
      unfold normSqSum
      apply Finset.sum_congr rfl
      intro i hi
      rw [hp i (Finset.mem_range.1 hi), if_pos hr]
      by_cases hb : i.testBit q = true
      · simp [hb]
      · rw [if_neg hb, if_neg hb, normSq_div_sqrt _ _ (le_of_lt hpos)]
    rw [e, ← Finset.sum_div, ← h0]
    exact div_self (ne_of_gt hpos)
  · have hlt : prob0Sum q (2 ^ qs.num_qubits) qs.qubits < 1 :=
      lt_of_le_of_lt (not_lt.1 hr) hr1
    have hpos : 0 < 1 - prob0Sum q (2 ^ qs.num_qubits) qs.qubits := by linarith
    have e : normSqSum (2 ^ qs.num_qubits)
        (measure (⟨Real.sqrt, Complex.ofReal, Complex.re, starRingEnd ℂ⟩ : CMath ℝ ℂ)
          qs q r).2.qubits
        = ∑ i ∈ Finset.range (2 ^ qs.num_qubits),
            (if i.testBit q = true then Complex.normSq (qs.qubits.getD i 0) else 0)
              / (1 - prob0Sum q (2 ^ qs.num_qubits) qs.qubits) := by
      unfold normSqSum
      apply Finset.sum_congr rfl
      intro i hi
      rw [hp i (Finset.mem_range.1 hi), if_neg hr]
      by_cases hb : i.testBit q = true
      · rw [if_pos hb, if_pos hb, normSq_div_sqrt _ _ (le_of_lt hpos)]
      · simp [hb]
    have h1 : (∑ i ∈ Finset.range (2 ^ qs.num_qubits),
        if i.testBit q = true then Complex.normSq (qs.qubits.getD i 0) else 0)
        = 1 - prob0Sum q (2 ^ qs.num_qubits) qs.qubits := by linarith
    rw [e, ← Finset.sum_div, h1]
    exact div_self (ne_of_gt hpos)

/-- Claim C5. Measurement collapse over exact arithmetic: on a normalized array
of length `2 ^ n` and a draw `r` in `[0, 1)`, `measure` returns 0 or 1; after
outcome 0 every amplitude at an index whose bit `q` is 1 is exactly 0, after
outcome 1 every amplitude at an index whose bit `q` is 0 is exactly 0, and in
both cases the squared magnitudes of the resulting array sum to 1. -/
theorem measure_collapse (qs : QuantumSystem ℂ) (q : Nat) (r : ℝ)
    (hlen : qs.qubits.length = 2 ^ qs.num_qubits)
    (hnorm : normSqSum (2 ^ qs.num_qubits) qs.qubits = 1) (hr0 : 0 ≤ r) (hr1 : r < 1) :
    ((measure (⟨Real.sqrt, Complex.ofReal, Complex.re, starRingEnd ℂ⟩ : CMath ℝ ℂ)
        qs q r).1 = 0 ∨
      (measure (⟨Real.sqrt, Complex.ofReal, Complex.re, starRingEnd ℂ⟩ : CMath ℝ ℂ)
        qs q r).1 = 1) ∧
    ((measure (⟨Real.sqrt, Complex.ofReal, Complex.re, starRingEnd ℂ⟩ : CMath ℝ ℂ)
        qs q r).1 = 0 → ∀ i, i < 2 ^ qs.num_qubits → i.testBit q = true →
      (measure (⟨Real.sqrt, Complex.ofReal, Complex.re, starRingEnd ℂ⟩ : CMath ℝ ℂ)
        qs q r).2.qubits[i]? = some 0) ∧
    ((measure (⟨Real.sqrt, Complex.ofReal, Complex.re, starRingEnd ℂ⟩ : CMath ℝ ℂ)
        qs q r).1 = 1 → ∀ i, i < 2 ^ qs.num_qubits → i.testBit q = false →
      (measure (⟨Real.sqrt, Complex.ofReal, Complex.re, starRingEnd ℂ⟩ : CMath ℝ ℂ)
        qs q r).2.qubits[i]? = some 0) ∧
    normSqSum (2 ^ qs.num_qubits)
      (measure (⟨Real.sqrt, Complex.ofReal, Complex.re, starRingEnd ℂ⟩ : CMath ℝ ℂ)
        qs q r).2.qubits = 1 := by
  obtain ⟨h1, _, hl, hp⟩ := measure_exact qs q r hlen
  refine ⟨?_, ?_, ?_, measure_normSqSum qs q r hlen hnorm hr0 hr1⟩
  · rw [h1]
    by_cases hr : r < prob0Sum q (2 ^ qs.num_qubits) qs.qubits <;> simp [hr]
  · intro ho i hi hb
    have hr : r < prob0Sum q (2 ^ qs.num_qubits) qs.qubits := by
      by_contra hr
      rw [h1, if_neg hr] at ho
      exact absurd ho (by decide)
    rw [getElem?_eq_some_getD _ i 0 (by rw [hl]; exact hi), hp i hi, if_pos hr, if_pos hb]
  · intro ho i hi hb
    have hr : ¬ r < prob0Sum q (2 ^ qs.num_qubits) qs.qubits := by
      intro hr
      rw [h1, if_pos hr] at ho
      exact absurd ho (by decide)
    rw [getElem?_eq_some_getD _ i 0 (by rw [hl]; exact hi), hp i hi, if_neg hr,
      if_neg (by simp [hb])]

/-- The one-qubit ground state is normalized. -/
theorem normSqSum_ground : normSqSum (2 ^ 1) [1, 0] = 1 := by
  simp [normSqSum, Finset.sum_range_succ]

/-- Witness of C5 on the one-qubit ground state, qubit 0 and draw 1/2. -/
theorem measure_collapse_witness :
    ([1, 0] : List ℂ).length = 2 ^ 1 ∧ normSqSum (2 ^ 1) [1, 0] = 1 ∧
    (0 : ℝ) ≤ 1 / 2 ∧ (1 / 2 : ℝ) < 1 ∧
    normSqSum (2 ^ 1)
      (measure (⟨Real.sqrt, Complex.ofReal, Complex.re, starRingEnd ℂ⟩ : CMath ℝ ℂ)
        ⟨[1, 0], 1⟩ 0 (1 / 2)).2.qubits = 1 :=
  ⟨rfl, normSqSum_ground, by norm_num, by norm_num,
    (measure_collapse ⟨[1, 0], 1⟩ 0 (1 / 2) rfl normSqSum_ground (by norm_num)
      (by norm_num)).2.2.2⟩

/-! ## Reachable states -/

/-- The index map of `cnot` exchanges the two indices of every swapped pair,
so a sum over the indices below `2 ^ n` is unchanged by it. -/
theorem sum_cnotIndex (c t n : Nat) (hct : c ≠ t) (ht : t < n) (g : Nat → ℝ) :
    ∑ p ∈ Finset.range (2 ^ n), g (if p.testBit c = true then p ^^^ 2 ^ t else p)
      = ∑ p ∈ Finset.range (2 ^ n), g p := by
  have hmem : ∀ a ∈ Finset.range (2 ^ n),
      (if a.testBit c = true then a ^^^ 2 ^ t else a) ∈ Finset.range (2 ^ n) := by
    intro a ha
    rw [Finset.mem_range] at ha ⊢
    by_cases hb : a.testBit c = true
    · rw [if_pos hb]
      exact xor_two_pow_lt a t n ha ht
    · rw [if_neg hb]
      exact ha
  have hinv : ∀ a ∈ Finset.range (2 ^ n),
      (fun p : Nat => if p.testBit c = true then p ^^^ 2 ^ t else p)
        ((fun p : Nat => if p.testBit c = true then p ^^^ 2 ^ t else p) a) = a := by
    intro a _
    by_cases hb : a.testBit c = true
    · have hb2 : (a ^^^ 2 ^ t).testBit c = true := by
        rw [testBit_xor_two_pow_of_ne a c t hct]
        exact hb
      simp only [hb, if_true, hb2, Nat.xor_cancel_right]
    · simp [hb]
  exact Finset.sum_nbij' (fun p => if p.testBit c = true then p ^^^ 2 ^ t else p)
    (fun p => if p.testBit c = true then p ^^^ 2 ^ t else p) hmem hmem hinv hinv
    (fun a _ => rfl)

/-- The sum of the squared magnitudes is the same before and after `cnot`. -/
theorem cnot_normSqSum (qs : QuantumSystem ℂ) (c t : Nat)
    (hlen : qs.qubits.length = 2 ^ qs.num_qubits) (ht : t < qs.num_qubits) (hct : c ≠ t) :
    normSqSum (2 ^ qs.num_qubits) (cnot qs c t).qubits
      = normSqSum (2 ^ qs.num_qubits) qs.qubits := by
  obtain ⟨_, _, hp⟩ := cnot_getD qs c t hlen ht hct
  unfold normSqSum
  rw [← sum_cnotIndex c t qs.num_qubits hct ht (fun p => Complex.normSq (qs.qubits.getD p 0))]
  apply Finset.sum_congr rfl
  intro p hpN
  rw [hp p (Finset.mem_range.1 hpN)]
  by_cases hb : p.testBit c = true
  · simp only [hb, if_true]
  · simp only [hb, if_false]
    simp

/-- The ground state built by `init_quantum_system` is normalized. -/
theorem init_normSqSum (junk : Nat → ℂ) (n : Nat) :
    normSqSum (2 ^ n) (init_quantum_system junk n).qubits = 1 := by
  obtain ⟨_, key⟩ := init_quantum_system_cells junk n
  have e : normSqSum (2 ^ n) (init_quantum_system junk n).qubits
      = ∑ i ∈ Finset.range (2 ^ n), if i = 0 then (1 : ℝ) else 0 := by
    unfold normSqSum
    apply Finset.sum_congr rfl
    intro i hi
    rw [List.getD_eq_getElem?_getD, key i (Finset.mem_range.1 hi)]
    by_cases h0 : i = 0 <;> simp [h0]
  rw [e, Finset.sum_ite_eq' (Finset.range (2 ^ n)) 0 (fun _ => (1 : ℝ))]
  simp

/-- Every reachable state has `n` qubits, an array of length `2 ^ n` and
squared magnitudes that sum to 1. -/
theorem reachable_invariant (n : Nat) (qs : QuantumSystem ℂ) (h : Reachable n qs) :
    qs.num_qubits = n ∧ qs.qubits.length = 2 ^ n ∧ normSqSum (2 ^ n) qs.qubits = 1 := by
  induction h with
  | init junk =>
    exact ⟨rfl, (init_quantum_system_cells junk n).1, init_normSqSum junk n⟩
  | step_hadamard qs q _ hq ih =>
    obtain ⟨hn, hl, hs⟩ := ih
    subst hn
    obtain ⟨_, hl2, _⟩ := hadamard_getD
      (⟨Real.sqrt, Complex.ofReal, Complex.re, starRingEnd ℂ⟩ : CMath ℝ ℂ) qs q hl hq
    exact ⟨rfl, hl2, (hadamard_normSqSum qs q hl hq).trans hs⟩
  | step_cnot qs c t _ _ ht hct ih =>
    obtain ⟨hn, hl, hs⟩ := ih
    subst hn
    obtain ⟨_, hl2, _⟩ := cnot_getD qs c t hl ht hct
    exact ⟨rfl, hl2, (cnot_normSqSum qs c t hl ht hct).trans hs⟩
  | step_measure qs q r _ _ hr0 hr1 ih =>
    obtain ⟨hn, hl, hs⟩ := ih
    subst hn
    obtain ⟨_, hn2, hl2, _⟩ := measure_exact qs q r hl
    exact ⟨hn2, hl2, measure_normSqSum qs q r hl hs hr0 hr1⟩

/-- Claim C4. Normalization is an invariant of the reachable states: over exact
arithmetic, in every state reached from `init_quantum_system n` by any finite
sequence of `hadamard q` with `q < n`, `cnot c t` with `c, t < n` and `c ≠ t`,
and `measure q` with `q < n` and a draw in `[0, 1)`, the squared magnitudes of
the `2 ^ n` amplitudes sum to 1. -/
theorem reachable_normalized (n : Nat) (qs : QuantumSystem ℂ) (h : Reachable n qs) :
    normSqSum (2 ^ n) qs.qubits = 1 :=
  (reachable_invariant n qs h).2.2

/-- Witness of C4: the state after `hadamard 0`, `cnot 0 1` and `measure 0`
with draw 1/4 on two qubits. -/
theorem reachable_normalized_witness :
    normSqSum (2 ^ 2)
      (measure (⟨Real.sqrt, Complex.ofReal, Complex.re, starRingEnd ℂ⟩ : CMath ℝ ℂ)
        (cnot (hadamard (⟨Real.sqrt, Complex.ofReal, Complex.re, starRingEnd ℂ⟩ : CMath ℝ ℂ)
          (init_quantum_system (fun _ => 0) 2) 0) 0 1) 0 (1 / 4)).2.qubits = 1 :=
  reachable_normalized 2 _
    (Reachable.step_measure _ 0 (1 / 4)
      (Reachable.step_cnot _ 0 1
        (Reachable.step_hadamard _ 0 (Reachable.init _) (by decide))
        (by decide) (by decide) (by decide))
      (by decide) (by norm_num) (by norm_num))

/-! ## The run of `main` -/

/-- The first two gate calls of `main` on concrete cells: `hadamard 0` on the
two-qubit ground state and `cnot 0 1` on a four-cell array. -/
theorem main_gates (junk : Nat → ℂ) (a b c d : ℂ) :
    (hadamard (⟨Real.sqrt, Complex.ofReal, Complex.re, starRingEnd ℂ⟩ : CMath ℝ ℂ)
      (init_quantum_system junk 2) 0)
      = ⟨[Complex.ofReal (1 / Real.sqrt 2) * (1 + 0),
          Complex.ofReal (1 / Real.sqrt 2) * (1 - 0),
          Complex.ofReal (1 / Real.sqrt 2) * (0 + 0),
          Complex.ofReal (1 / Real.sqrt 2) * (0 - 0)], 2⟩ ∧
    cnot (⟨[a, b, c, d], 2⟩ : QuantumSystem ℂ) 0 1 = ⟨[a, d, c, b], 2⟩ :=
  ⟨rfl, rfl⟩

/-- Claim C11. Scenario B as run by `main`, over exact arithmetic:
`init_quantum_system 2` followed by `hadamard 0` gives the amplitudes
`[1/sqrt 2, 1/sqrt 2, 0, 0]`, and a following `cnot 0 1` gives
`[1/sqrt 2, 0, 0, 1/sqrt 2]`: index 0 is unchanged, the amplitude of index 1
has moved to index 3, and indices 1 and 2 hold 0. -/
theorem scenario_bell (junk : Nat → ℂ) :
    (hadamard (⟨Real.sqrt, Complex.ofReal, Complex.re, starRingEnd ℂ⟩ : CMath ℝ ℂ)
      (init_quantum_system junk 2) 0).qubits
      = [1 / (Real.sqrt 2 : ℂ), 1 / (Real.sqrt 2 : ℂ), 0, 0] ∧
    (cnot (hadamard (⟨Real.sqrt, Complex.ofReal, Complex.re, starRingEnd ℂ⟩ : CMath ℝ ℂ)
      (init_quantum_system junk 2) 0) 0 1).qubits
      = [1 / (Real.sqrt 2 : ℂ), 0, 0, 1 / (Real.sqrt 2 : ℂ)] := by
  have h1 := (main_gates junk 0 0 0 0).1
  have e : (hadamard (⟨Real.sqrt, Complex.ofReal, Complex.re, starRingEnd ℂ⟩ : CMath ℝ ℂ)
      (init_quantum_system junk 2) 0)
      = ⟨[1 / (Real.sqrt 2 : ℂ), 1 / (Real.sqrt 2 : ℂ), 0, 0], 2⟩ := by
    rw [h1]
    simp
  rw [e, (main_gates junk _ _ _ _).2]
  exact ⟨rfl, rfl⟩

/-- The squared magnitude of the Bell amplitude `1 / sqrt 2` is 1/2. -/
theorem normSq_bell_amplitude : Complex.normSq (1 / (Real.sqrt 2 : ℂ)) = 1 / 2 := by
  rw [Complex.normSq_div, Complex.normSq_one, Complex.normSq_ofReal,
    Real.mul_self_sqrt (by norm_num)]

/-- On two qubits the probability of outcome 0 for qubit 0 is carried by the
indices 0 and 2. -/
theorem prob0Sum_two_qubits_zero (v : List ℂ) :
    prob0Sum 0 (2 ^ 2) v = Complex.normSq (v.getD 0 0) + Complex.normSq (v.getD 2 0) := by
  have t0 : Nat.testBit 0 0 = false := by decide
  have t1 : Nat.testBit 1 0 = true := by decide
  have t2 : Nat.testBit 2 0 = false := by decide
  have t3 : Nat.testBit 3 0 = true := by decide
  rw [prob0Sum_eq_sum_ite]
  simp [Finset.sum_range_succ, t0, t1, t2, t3]

/-- On two qubits the probability of outcome 0 for qubit 1 is carried by the
indices 0 and 1. -/
theorem prob0Sum_two_qubits_one (v : List ℂ) :
    prob0Sum 1 (2 ^ 2) v = Complex.normSq (v.getD 0 0) + Complex.normSq (v.getD 1 0) := by
  have t0 : Nat.testBit 0 1 = false := by decide
  have t1 : Nat.testBit 1 1 = false := by decide
  have t2 : Nat.testBit 2 1 = true := by decide
  have t3 : Nat.testBit 3 1 = true := by decide
  rw [prob0Sum_eq_sum_ite]
  simp [Finset.sum_range_succ, t0, t1, t2, t3]

/-- Claim C12. Scenario C over exact arithmetic: from the Bell state
`[1/sqrt 2, 0, 0, 1/sqrt 2]` on two qubits and for all draws `r1`, `r2` in
`[0, 1)`, `measure 0` with draw `r1` returns 0 exactly when `r1 < 1/2` and 1
otherwise, and the following `measure 1` with draw `r2` returns the same
outcome, whatever `r2` is.  No bound on `r1` is needed. -/
theorem scenario_correlation (r1 r2 : ℝ) (h2 : 0 ≤ r2) (h2' : r2 < 1) :
    ((measure (⟨Real.sqrt, Complex.ofReal, Complex.re, starRingEnd ℂ⟩ : CMath ℝ ℂ)
        ⟨[1 / (Real.sqrt 2 : ℂ), 0, 0, 1 / (Real.sqrt 2 : ℂ)], 2⟩ 0 r1).1 = 0
      ↔ r1 < 1 / 2) ∧
    ((measure (⟨Real.sqrt, Complex.ofReal, Complex.re, starRingEnd ℂ⟩ : CMath ℝ ℂ)
        ⟨[1 / (Real.sqrt 2 : ℂ), 0, 0, 1 / (Real.sqrt 2 : ℂ)], 2⟩ 0 r1).1 = 1
      ↔ ¬ r1 < 1 / 2) ∧
    (measure (⟨Real.sqrt, Complex.ofReal, Complex.re, starRingEnd ℂ⟩ : CMath ℝ ℂ)
      (measure (⟨Real.sqrt, Complex.ofReal, Complex.re, starRingEnd ℂ⟩ : CMath ℝ ℂ)
        ⟨[1 / (Real.sqrt 2 : ℂ), 0, 0, 1 / (Real.sqrt 2 : ℂ)], 2⟩ 0 r1).2 1 r2).1
      = (measure (⟨Real.sqrt, Complex.ofReal, Complex.re, starRingEnd ℂ⟩ : CMath ℝ ℂ)
        ⟨[1 / (Real.sqrt 2 : ℂ), 0, 0, 1 / (Real.sqrt 2 : ℂ)], 2⟩ 0 r1).1 := by
  have hP : prob0Sum 0 (2 ^ 2) [1 / (Real.sqrt 2 : ℂ), 0, 0, 1 / (Real.sqrt 2 : ℂ)]
      = 1 / 2 := by
    rw [prob0Sum_two_qubits_zero]
    simp only [List.getD_cons_zero, List.getD_cons_succ]
    rw [normSq_bell_amplitude]
    simp
  obtain ⟨ho, hn, hl, hp⟩ := measure_exact
    ⟨[1 / (Real.sqrt 2 : ℂ), 0, 0, 1 / (Real.sqrt 2 : ℂ)], 2⟩ 0 r1 rfl
  simp only [hP] at ho hp
  have hl' : (measure (⟨Real.sqrt, Complex.ofReal, Complex.re, starRingEnd ℂ⟩ : CMath ℝ ℂ)
      ⟨[1 / (Real.sqrt 2 : ℂ), 0, 0, 1 / (Real.sqrt 2 : ℂ)], 2⟩ 0 r1).2.qubits.length
      = 2 ^ (measure (⟨Real.sqrt, Complex.ofReal, Complex.re, starRingEnd ℂ⟩ : CMath ℝ ℂ)
        ⟨[1 / (Real.sqrt 2 : ℂ), 0, 0, 1 / (Real.sqrt 2 : ℂ)], 2⟩ 0 r1).2.num_qubits := by
    rw [hn]
    exact hl
  obtain ⟨ho2, _, _, _⟩ := measure_exact _ 1 r2 hl'
  rw [hn] at ho2
  have q0 := hp 0 (by decide)
  have q1 := hp 1 (by decide)
  have t0 : Nat.testBit 0 0 = false := by decide
  have t1 : Nat.testBit 1 0 = true := by decide
  simp only [t0, t1, if_true, Bool.false_eq_true, if_false, List.getD_cons_zero,
    List.getD_cons_succ] at q0 q1
  refine ⟨?_, ?_, ?_⟩
  · rw [ho]
    by_cases hr : r1 < 1 / 2 <;> simp [hr]
  · rw [ho]
    by_cases hr : r1 < 1 / 2 <;> simp [hr]
  · rw [ho2, ho, prob0Sum_two_qubits_one, q0, q1]
    by_cases hr : r1 < 1 / 2
    · have hs : Complex.normSq ((1 / (Real.sqrt 2 : ℂ)) / (Real.sqrt (1 / 2) : ℂ)) = 1 := by
        rw [normSq_div_sqrt _ _ (by norm_num), normSq_bell_amplitude]
        norm_num
      rw [if_pos hr, if_pos hr, if_pos hr, hs, Complex.normSq_zero, add_zero, if_pos h2']
    · rw [if_neg hr, if_neg hr, if_neg hr, zero_div, Complex.normSq_zero, add_zero,
        if_neg (not_lt.2 h2)]

/-- Witness of C12 with the draws 1/4 and 3/4. -/
theorem scenario_correlation_witness :
    (0 : ℝ) ≤ 3 / 4 ∧ (3 / 4 : ℝ) < 1 ∧
    (measure (⟨Real.sqrt, Complex.ofReal, Complex.re, starRingEnd ℂ⟩ : CMath ℝ ℂ)
      (measure (⟨Real.sqrt, Complex.ofReal, Complex.re, starRingEnd ℂ⟩ : CMath ℝ ℂ)
        ⟨[1 / (Real.sqrt 2 : ℂ), 0, 0, 1 / (Real.sqrt 2 : ℂ)], 2⟩ 0 (1 / 4)).2 1 (3 / 4)).1
      = (measure (⟨Real.sqrt, Complex.ofReal, Complex.re, starRingEnd ℂ⟩ : CMath ℝ ℂ)
        ⟨[1 / (Real.sqrt 2 : ℂ), 0, 0, 1 / (Real.sqrt 2 : ℂ)], 2⟩ 0 (1 / 4)).1 :=
  ⟨by norm_num, by norm_num,
    (scenario_correlation (1 / 4) (3 / 4) (by norm_num) (by norm_num)).2.2⟩

/-! ## The random draw and the missing checks -/

/-- Claim C13. The draw `(double)rand() / RAND_MAX` when `rand()` returns
`RAND_MAX` itself, for any positive value `m + 1` of `RAND_MAX`: the draw is
exactly 1, so it is not below 1. -/
theorem randDraw_rand_max (m : Nat) :
    (randDraw (m + 1) (m + 1) : ℝ) = 1 ∧ ¬ (randDraw (m + 1) (m + 1) : ℝ) < 1 := by
  have h : (randDraw (m + 1) (m + 1) : ℝ) = 1 := by
    unfold randDraw
    exact div_self (by exact_mod_cast Nat.succ_ne_zero m)
  exact ⟨h, by rw [h]; exact lt_irrefl 1⟩

/-- The outcome returned by `measure`, in any arithmetic. -/
theorem measure_fst {R K : Type} [LinearOrderedField R] [Field K] (M : CMath R K)
    (qs : QuantumSystem K) (q : Nat) (r : R) :
    (measure M qs q r).1 = if r < measureProb0 M qs q then 0 else 1 := by
  unfold measure
  by_cases h : r < measureProb0 M qs q
  · simp only [if_pos h]
  · simp only [if_neg h]

/-- The loop of `cnot` with equal control and target leaves the system as it
was. -/
theorem cnot_same {K : Type} [Zero K] (qs : QuantumSystem K) (c : Nat) :
    cnot qs c c = qs := by
  have hq : (cnot qs c c).qubits = qs.qubits := by
    simp only [cnot, one_shiftLeft_eq]
    exact cnot_loop_same c _ qs.qubits
  exact qs_ext _ _ hq rfl

/-- Counterexample to C14: `cnot 1 1` on a two-qubit array returns normally,
with the array it was given. -/
theorem cnot_equal_indices_counterexample :
    cnot (⟨[5, 6, 7, 8], 2⟩ : QuantumSystem ℚ) 1 1 = ⟨[5, 6, 7, 8], 2⟩ :=
  rfl

/-- Claim C14, amended. `cnot` with equal control and target is accepted
silently: for every system and every `c`, `cnot c c` returns normally and
leaves the qubit count and every amplitude unchanged. -/
theorem cnot_equal_indices_noop {K : Type} [Zero K] (qs : QuantumSystem K) (c : Nat) :
    cnot qs c c = qs :=
  cnot_same qs c

/-- The one-qubit ground state gives outcome 0 of qubit 0 the probability 1. -/
theorem prob0Sum_ground : prob0Sum 0 (2 ^ 1) [1, 0] = 1 := by
  have t0 : Nat.testBit 0 0 = false := by decide
  have t1 : Nat.testBit 1 0 = true := by decide
  rw [prob0Sum_eq_sum_ite]
  simp [Finset.sum_range_succ, t0, t1]

/-- Counterexample to C15: on the one-qubit ground state `[1, 0]`, qubit 0 and
draw 1, the divisor `sqrt (1 - p0)` of the selected branch is zero, and
`measure` nevertheless returns outcome 1 and overwrites the array: the
amplitude at index 0 becomes 0. -/
theorem measure_guard_counterexample :
    ¬ (1 : ℝ) < prob0Sum 0 (2 ^ 1) [1, 0] ∧
    Real.sqrt (1 - prob0Sum 0 (2 ^ 1) [1, 0]) = 0 ∧
    (measure (⟨Real.sqrt, Complex.ofReal, Complex.re, starRingEnd ℂ⟩ : CMath ℝ ℂ)
      ⟨[1, 0], 1⟩ 0 1).1 = 1 ∧
    (measure (⟨Real.sqrt, Complex.ofReal, Complex.re, starRingEnd ℂ⟩ : CMath ℝ ℂ)
      ⟨[1, 0], 1⟩ 0 1).2.qubits ≠ [1, 0] := by
  obtain ⟨ho, _, _, hp⟩ := measure_exact ⟨[1, 0], 1⟩ 0 1 rfl
  simp only [prob0Sum_ground] at ho hp
  have hlt : ¬ (1 : ℝ) < 1 := lt_irrefl 1
  refine ⟨by rw [prob0Sum_ground]; exact hlt, by rw [prob0Sum_ground]; simp, ?_, ?_⟩
  · rw [ho, if_neg hlt]
  · intro hq
    have h0 := hp 0 (by decide)
    rw [hq, if_neg hlt, if_neg (by decide)] at h0
    simp at h0

/-- Claim C15, amended. `measure` has no guard on its renormalization divisor:
for every array of length `2 ^ n`, every qubit and every draw, also those for
which the divisor of the selected branch is zero, it returns outcome 0 when
`r < p0` and outcome 1 otherwise, keeps the length, and sets to 0 every
amplitude of the branch that was not selected. -/
theorem measure_unguarded (qs : QuantumSystem ℂ) (q : Nat) (r : ℝ)
    (hlen : qs.qubits.length = 2 ^ qs.num_qubits) :
    (measure (⟨Real.sqrt, Complex.ofReal, Complex.re, starRingEnd ℂ⟩ : CMath ℝ ℂ)
      qs q r).1 = (if r < prob0Sum q (2 ^ qs.num_qubits) qs.qubits then 0 else 1) ∧
    (measure (⟨Real.sqrt, Complex.ofReal, Complex.re, starRingEnd ℂ⟩ : CMath ℝ ℂ)
      qs q r).2.qubits.length = 2 ^ qs.num_qubits ∧
    ∀ i, i < 2 ^ qs.num_qubits →
      (i.testBit q = true ↔ r < prob0Sum q (2 ^ qs.num_qubits) qs.qubits) →
      (measure (⟨Real.sqrt, Complex.ofReal, Complex.re, starRingEnd ℂ⟩ : CMath ℝ ℂ)
        qs q r).2.qubits[i]? = some 0 := by
  obtain ⟨ho, _, hl, hp⟩ := measure_exact qs q r hlen
  refine ⟨ho, hl, fun i hi hsel => ?_⟩
  rw [getElem?_eq_some_getD _ i 0 (by rw [hl]; exact hi), hp i hi]
  by_cases hr : r < prob0Sum q (2 ^ qs.num_qubits) qs.qubits
  · rw [if_pos hr, if_pos (hsel.2 hr)]
  · rw [if_neg hr, if_neg (fun hb => hr (hsel.1 hb))]

/-- Witness of the amended C15 at the ground state `[1, 0]`, qubit 0 and
draw 1, where the divisor of the selected branch is zero. -/
theorem measure_unguarded_witness :
    ([1, 0] : List ℂ).length = 2 ^ 1 ∧
    (measure (⟨Real.sqrt, Complex.ofReal, Complex.re, starRingEnd ℂ⟩ : CMath ℝ ℂ)
      ⟨[1, 0], 1⟩ 0 1).1 = (if (1 : ℝ) < prob0Sum 0 (2 ^ 1) [1, 0] then 0 else 1) :=
  ⟨rfl, (measure_unguarded ⟨[1, 0], 1⟩ 0 1 rfl).1⟩

/-- For a qubit index `q ≥ n` no index below `2 ^ n` has bit `q` set, so the
probability of outcome 0 is the whole sum of squared magnitudes. -/
theorem prob0Sum_out_of_range (q n : Nat) (hq : n ≤ q) (v : List ℂ) :
    prob0Sum q (2 ^ n) v = normSqSum (2 ^ n) v := by
  rw [prob0Sum_eq_sum_ite, normSqSum]
  apply Finset.sum_congr rfl
  intro i hi
  have hlt : i < 2 ^ q :=
    lt_of_lt_of_le (Finset.mem_range.1 hi) (Nat.pow_le_pow_right (by decide) hq)
  rw [Nat.testBit_lt_two_pow hlt]
  simp

/-- Counterexample to C16: on the one-qubit array `[1, 0]`, `measure` with the
out-of-range qubit index 1 and draw 1/2 returns the outcome 0. -/
theorem measure_out_of_range_counterexample :
    (1 : Nat) ≤ 1 ∧
    (measure (⟨Real.sqrt, Complex.ofReal, Complex.re, starRingEnd ℂ⟩ : CMath ℝ ℂ)
      ⟨[1, 0], 1⟩ 1 (1 / 2)).1 = 0 := by
  obtain ⟨ho, _, _, _⟩ := measure_exact ⟨[1, 0], 1⟩ 1 (1 / 2) rfl
  have hP : prob0Sum 1 (2 ^ 1) [1, 0] = 1 := by
    rw [prob0Sum_out_of_range 1 1 (le_refl 1)]
    simp [normSqSum, Finset.sum_range_succ]
  refine ⟨le_refl 1, ?_⟩
  rw [ho]
  simp only [hP]
  rw [if_pos (by norm_num)]

/-- Claim C16, amended. `measure` does not reject an out-of-range qubit index:
on an array of length `2 ^ n` and for `q ≥ n` it treats bit `q` of every index
as 0, so `p0` is the sum of all squared magnitudes; it returns 0 exactly when
`r < p0`, with every amplitude divided by `sqrt p0`, and 1 otherwise, with
every amplitude set to 0; the length is kept. -/
theorem measure_out_of_range (qs : QuantumSystem ℂ) (q : Nat) (r : ℝ)
    (hlen : qs.qubits.length = 2 ^ qs.num_qubits) (hq : qs.num_qubits ≤ q) :
    ((measure (⟨Real.sqrt, Complex.ofReal, Complex.re, starRingEnd ℂ⟩ : CMath ℝ ℂ)
        qs q r).1 = 0 ↔ r < normSqSum (2 ^ qs.num_qubits) qs.qubits) ∧
    ((measure (⟨Real.sqrt, Complex.ofReal, Complex.re, starRingEnd ℂ⟩ : CMath ℝ ℂ)
        qs q r).1 = 1 ↔ ¬ r < normSqSum (2 ^ qs.num_qubits) qs.qubits) ∧
    (measure (⟨Real.sqrt, Complex.ofReal, Complex.re, starRingEnd ℂ⟩ : CMath ℝ ℂ)
        qs q r).2.qubits.length = 2 ^ qs.num_qubits ∧
    (r < normSqSum (2 ^ qs.num_qubits) qs.qubits → ∀ i, i < 2 ^ qs.num_qubits →
      (measure (⟨Real.sqrt, Complex.ofReal, Complex.re, starRingEnd ℂ⟩ : CMath ℝ ℂ)
        qs q r).2.qubits.getD i 0 =
        qs.qubits.getD i 0 / (Real.sqrt (normSqSum (2 ^ qs.num_qubits) qs.qubits) : ℂ)) ∧
    (¬ r < normSqSum (2 ^ qs.num_qubits) qs.qubits → ∀ i, i < 2 ^ qs.num_qubits →
      (measure (⟨Real.sqrt, Complex.ofReal, Complex.re, starRingEnd ℂ⟩ : CMath ℝ ℂ)
        qs q r).2.qubits[i]? = some 0) := by
  obtain ⟨ho, _, hl, hp⟩ := measure_exact qs q r hlen
  rw [prob0Sum_out_of_range q _ hq] at ho
  simp only [prob0Sum_out_of_range q _ hq] at hp
  have hbit : ∀ i, i < 2 ^ qs.num_qubits → ¬ i.testBit q = true := by
    intro i hi
    have hlt : i < 2 ^ q := lt_of_lt_of_le hi (Nat.pow_le_pow_right (by decide) hq)
    rw [Nat.testBit_lt_two_pow hlt]
    exact Bool.false_ne_true
  refine ⟨?_, ?_, hl, ?_, ?_⟩
  · rw [ho]
    by_cases hr : r < normSqSum (2 ^ qs.num_qubits) qs.qubits <;> simp [hr]
  · rw [ho]
    by_cases hr : r < normSqSum (2 ^ qs.num_qubits) qs.qubits <;> simp [hr]
  · intro hr i hi
    rw [hp i hi, if_pos hr, if_neg (hbit i hi)]
  · intro hr i hi
    rw [getElem?_eq_some_getD _ i 0 (by rw [hl]; exact hi), hp i hi, if_neg hr,
      if_neg (hbit i hi)]

/-- Witness of the amended C16 on the one-qubit array `[1, 0]` and the
out-of-range qubit index 1. -/
theorem measure_out_of_range_witness :
    ([1, 0] : List ℂ).length = 2 ^ 1 ∧ 1 ≤ 1 ∧
    ((measure (⟨Real.sqrt, Complex.ofReal, Complex.re, starRingEnd ℂ⟩ : CMath ℝ ℂ)
        ⟨[1, 0], 1⟩ 1 (1 / 2)).1 = 0 ↔ (1 / 2 : ℝ) < normSqSum (2 ^ 1) [1, 0]) :=
  ⟨rfl, le_refl 1, (measure_out_of_range ⟨[1, 0], 1⟩ 1 (1 / 2) rfl (le_refl 1)).1⟩

/-- Claim C19. Under the draw range `[0, 1)` the renormalization divisor is
never zero: over exact arithmetic, for every system (normalized or not), every
qubit and every draw `r` with `0 ≤ r < 1`, if `measure` takes the outcome-0
branch then `prob0 > 0`, and if it takes the outcome-1 branch then
`1 - prob0 > 0`; in both cases the square root used as divisor is strictly
positive. -/
theorem measure_divisor_pos (qs : QuantumSystem ℂ) (q : Nat) (r : ℝ)
    (hr0 : 0 ≤ r) (hr1 : r < 1) :
    ((measure (⟨Real.sqrt, Complex.ofReal, Complex.re, starRingEnd ℂ⟩ : CMath ℝ ℂ)
        qs q r).1 = 0 →
      0 < measureProb0
          (⟨Real.sqrt, Complex.ofReal, Complex.re, starRingEnd ℂ⟩ : CMath ℝ ℂ) qs q ∧
      0 < Real.sqrt (measureProb0
          (⟨Real.sqrt, Complex.ofReal, Complex.re, starRingEnd ℂ⟩ : CMath ℝ ℂ) qs q)) ∧
    ((measure (⟨Real.sqrt, Complex.ofReal, Complex.re, starRingEnd ℂ⟩ : CMath ℝ ℂ)
        qs q r).1 = 1 →
      0 < 1 - measureProb0
          (⟨Real.sqrt, Complex.ofReal, Complex.re, starRingEnd ℂ⟩ : CMath ℝ ℂ) qs q ∧
      0 < Real.sqrt (1 - measureProb0
          (⟨Real.sqrt, Complex.ofReal, Complex.re, starRingEnd ℂ⟩ : CMath ℝ ℂ) qs q)) := by
  have ho := measure_fst
    (⟨Real.sqrt, Complex.ofReal, Complex.re, starRingEnd ℂ⟩ : CMath ℝ ℂ) qs q r
  constructor
  · intro h0
    have hr : r < measureProb0
        (⟨Real.sqrt, Complex.ofReal, Complex.re, starRingEnd ℂ⟩ : CMath ℝ ℂ) qs q := by
      by_contra hr
      rw [ho, if_neg hr] at h0
      exact absurd h0 (by decide)
    have hpos := lt_of_le_of_lt hr0 hr
    exact ⟨hpos, Real.sqrt_pos.2 hpos⟩
  · intro h1
    have hr : ¬ r < measureProb0
        (⟨Real.sqrt, Complex.ofReal, Complex.re, starRingEnd ℂ⟩ : CMath ℝ ℂ) qs q := by
      intro hr
      rw [ho, if_pos hr] at h1
      exact absurd h1 (by decide)
    have hpos : 0 < 1 - measureProb0
        (⟨Real.sqrt, Complex.ofReal, Complex.re, starRingEnd ℂ⟩ : CMath ℝ ℂ) qs q := by
      linarith [not_lt.1 hr]
    exact ⟨hpos, Real.sqrt_pos.2 hpos⟩

/-- Witness of C19 on the one-qubit ground state, qubit 0 and draw 1/2. -/
theorem measure_divisor_pos_witness :
    (0 : ℝ) ≤ 1 / 2 ∧ (1 / 2 : ℝ) < 1 ∧
    ((measure (⟨Real.sqrt, Complex.ofReal, Complex.re, starRingEnd ℂ⟩ : CMath ℝ ℂ)
        ⟨[1, 0], 1⟩ 0 (1 / 2)).1 = 0 →
      0 < measureProb0
          (⟨Real.sqrt, Complex.ofReal, Complex.re, starRingEnd ℂ⟩ : CMath ℝ ℂ)
          ⟨[1, 0], 1⟩ 0 ∧
      0 < Real.sqrt (measureProb0
          (⟨Real.sqrt, Complex.ofReal, Complex.re, starRingEnd ℂ⟩ : CMath ℝ ℂ)
          ⟨[1, 0], 1⟩ 0)) :=
  ⟨by norm_num, by norm_num,
    (measure_divisor_pos ⟨[1, 0], 1⟩ 0 (1 / 2) (by norm_num) (by norm_num)).1⟩

/-! ## Shape of the system -/

/-- Every produced system has `n` qubits and an array of length `2 ^ n`. -/
theorem produced_shape {R K : Type} [LinearOrderedField R] [Field K] (M : CMath R K)
    (n : Nat) (qs : QuantumSystem K) (h : Produced M n qs) :
    qs.num_qubits = n ∧ qs.qubits.length = 2 ^ n := by
  induction h with
  | init junk => exact ⟨rfl, (init_quantum_system_cells junk n).1⟩
  | step_hadamard qs q _ hq ih =>
    obtain ⟨hn, hl⟩ := ih
    subst hn
    obtain ⟨_, hl2, _⟩ := hadamard_getD M qs q hl hq
    exact ⟨rfl, hl2⟩
  | step_cnot qs c t _ _ ht ih =>
    obtain ⟨hn, hl⟩ := ih
    subst hn
    by_cases hct : c = t
    · subst hct
      rw [cnot_same]
      exact ⟨rfl, hl⟩
    · obtain ⟨_, hl2, _⟩ := cnot_getD qs c t hl ht hct
      exact ⟨rfl, hl2⟩
  | step_measure qs q r _ _ ih =>
    obtain ⟨hn, hl⟩ := ih
    subst hn
    obtain ⟨_, hn2, hl2, _⟩ := measure_getD M qs q r hl
    exact ⟨hn2, hl2⟩

/-- Claim C17. Shape invariant: in every system produced from
`init_quantum_system n` by any finite sequence of `hadamard q`, `cnot c t` and
`measure q` with indices below `n` (any draws, control and target equal or
not, exact arithmetic), `num_qubits` is still `n` and the amplitude array has
length exactly `2 ^ n`. -/
theorem shape_invariant (n : Nat) (qs : QuantumSystem ℂ)
    (h : Produced (⟨Real.sqrt, Complex.ofReal, Complex.re, starRingEnd ℂ⟩ : CMath ℝ ℂ)
      n qs) :
    qs.num_qubits = n ∧ qs.qubits.length = 2 ^ n :=
  produced_shape _ n qs h

/-- Witness of C17: the system after `hadamard 0`, `cnot 1 1` and `measure 1`
with draw 7 on two qubits. -/
theorem shape_invariant_witness :
    (measure (⟨Real.sqrt, Complex.ofReal, Complex.re, starRingEnd ℂ⟩ : CMath ℝ ℂ)
      (cnot (hadamard (⟨Real.sqrt, Complex.ofReal, Complex.re, starRingEnd ℂ⟩ : CMath ℝ ℂ)
        (init_quantum_system (fun _ => 0) 2) 0) 1 1) 1 7).2.num_qubits = 2 ∧
    (measure (⟨Real.sqrt, Complex.ofReal, Complex.re, starRingEnd ℂ⟩ : CMath ℝ ℂ)
      (cnot (hadamard (⟨Real.sqrt, Complex.ofReal, Complex.re, starRingEnd ℂ⟩ : CMath ℝ ℂ)
        (init_quantum_system (fun _ => 0) 2) 0) 1 1) 1 7).2.qubits.length = 2 ^ 2 :=
  shape_invariant 2 _
    (Produced.step_measure _ 1 7
      (Produced.step_cnot _ 1 1
        (Produced.step_hadamard _ 0 (Produced.init _) (by decide))
        (by decide) (by decide))
      (by decide))

/-! ## The pairs visited by `hadamard` -/

/-- Two loops with the same bounds whose bodies keep a relation between their
states end in related states. -/
theorem forLoop_sim {σ τ : Type} (Rel : σ → τ → Prop) (bound step : Nat)
    (b1 : Nat → σ → σ) (b2 : Nat → τ → τ)
    (h : ∀ i x y, Rel x y → Rel (b1 i x) (b2 i y)) :
    ∀ (fuel i : Nat) (x : σ) (y : τ), Rel x y →
      Rel (forLoop bound step b1 fuel i x) (forLoop bound step b2 fuel i y) := by
  intro fuel
  induction fuel with
  | zero =>
    intro i x y hxy
    simpa [forLoop] using hxy
  | succ fuel ih =>
    intro i x y hxy
    by_cases hlt : i < bound
    · simpa [forLoop, hlt] using ih (i + step) _ _ (h i x y hxy)
    · simpa [forLoop, hlt] using hxy

/-- The array computed by `hadamard` is the result of performing the reads
and writes of `hadamardPair` on the pairs of `hadamardPairs`, in order. -/
theorem hadamard_eq_foldl {R K : Type} [LinearOrderedField R] [Field K] (M : CMath R K)
    (qs : QuantumSystem K) (q : Nat) :
    (hadamard M qs q).qubits = (hadamardPairs qs.num_qubits q).foldl
      (fun v pr => hadamardPair (M.ofReal (1 / M.sqrt 2)) pr v) qs.qubits := by
  unfold hadamard hadamardPairs
  apply forLoop_sim (fun (v : List K) (acc : List (Nat × Nat)) =>
    v = acc.foldl (fun v pr => hadamardPair (M.ofReal (1 / M.sqrt 2)) pr v) qs.qubits)
  · intro i x y hxy
    apply forLoop_sim (fun (v : List K) (acc : List (Nat × Nat)) =>
      v = acc.foldl (fun v pr => hadamardPair (M.ofReal (1 / M.sqrt 2)) pr v) qs.qubits)
    · intro j x y hxy
      rw [List.foldl_append, ← hxy]
      rfl
    · exact hxy
  · rfl

/-- The pairs whose lower index is below `m`, in increasing order. -/
theorem pairsBelow_succ_low (s m : Nat) (h : m % (2 * s) < s) :
    ((List.range (m + 1)).filter (fun p => decide (p % (2 * s) < s))).map
        (fun p => (p, p + s))
      = ((List.range m).filter (fun p => decide (p % (2 * s) < s))).map
        (fun p => (p, p + s)) ++ [(m, m + s)] := by
  rw [List.range_succ, List.filter_append, List.map_append]
  simp [h]

theorem pairsBelow_succ_high (s m : Nat) (h : ¬ m % (2 * s) < s) :
    ((List.range (m + 1)).filter (fun p => decide (p % (2 * s) < s)))
      = ((List.range m).filter (fun p => decide (p % (2 * s) < s))) := by
  rw [List.range_succ, List.filter_append]
  simp [h]

/-- The upper half of a block holds no lower index of a pair. -/
theorem pairsBelow_upper_half (s i : Nat) (hi : (2 * s) ∣ i) :
    ∀ k, k ≤ s →
      ((List.range (i + s + k)).filter (fun p => decide (p % (2 * s) < s)))
        = ((List.range (i + s)).filter (fun p => decide (p % (2 * s) < s))) := by
  obtain ⟨a, ha⟩ := hi
  intro k
  induction k with
  | zero => intro _; rfl
  | succ k ih =>
    intro hk
    rw [← Nat.add_assoc, pairsBelow_succ_high s (i + s + k), ih (by omega)]
    rw [ha, Nat.add_assoc, Nat.mul_add_mod, Nat.mod_eq_of_lt (by omega)]
    omega

/-- The nested loops of `hadamard` visit the pairs `(p, p + s)` for the
indices `p` below `N` in the lower half of their block, in increasing order. -/
theorem hadamardPairs_loops (s N : Nat) (hs : 0 < s) (hN : (2 * s) ∣ N) :
    forLoop N (2 * s)
      (fun i acc => forLoop s 1 (fun j acc => acc ++ [(i + j, i + j + s)]) s 0 acc) N 0 []
      = ((List.range N).filter (fun p => decide (p % (2 * s) < s))).map
        (fun p => (p, p + s)) := by
  have h := forLoop_invariant N (2 * s)
    (fun i acc => forLoop s 1 (fun j acc => acc ++ [(i + j, i + j + s)]) s 0 acc)
    (fun i acc => (2 * s) ∣ i ∧ i ≤ N ∧
      acc = ((List.range i).filter (fun p => decide (p % (2 * s) < s))).map
        (fun p => (p, p + s)))
    (by
      intro i acc hi hinv
      obtain ⟨hd, _, hacc⟩ := hinv
      have hiN : i + 2 * s ≤ N := by
        obtain ⟨a, ha⟩ := hd
        obtain ⟨b, hb⟩ := hN
        rw [ha, hb] at hi
        have hab : a < b := lt_of_mul_lt_mul_left hi (Nat.zero_le _)
        have : 2 * s * (a + 1) ≤ 2 * s * b := Nat.mul_le_mul_left _ hab
        rw [ha, hb]
        rw [Nat.mul_add, Nat.mul_one] at this
        exact this
      have hin := forLoop_invariant s 1 (fun j acc => acc ++ [(i + j, i + j + s)])
        (fun j acc => acc = ((List.range (i + j)).filter
          (fun p => decide (p % (2 * s) < s))).map (fun p => (p, p + s)))
        (by
          intro j acc hj hacc
          obtain ⟨a, ha⟩ := hd
          have hm : (i + j) % (2 * s) < s := by
            rw [ha, Nat.mul_add_mod, Nat.mod_eq_of_lt (by omega)]
            exact hj
          rw [← Nat.add_assoc, pairsBelow_succ_low s (i + j) hm, ← hacc])
        s 0 acc (by simp) (by omega) hacc
      obtain ⟨j, hj1, hj2, hj⟩ := hin
      have hjs : j = s := by omega
      subst hjs
      refine ⟨Dvd.dvd.add hd (dvd_refl _), hiN, ?_⟩
      beta_reduce
      rw [hj]
      have := pairsBelow_upper_half j i hd j (le_refl j)
      rw [show i + 2 * j = i + j + j by omega, this])
    N 0 []
    (by
      have : N * 1 ≤ N * (2 * s) := Nat.mul_le_mul_left _ (by omega)
      omega)
    (by omega) ⟨dvd_zero _, Nat.zero_le _, rfl⟩
  obtain ⟨j, hj1, _, _, hj2, hj⟩ := h
  have : j = N := by omega
  subst this
  exact hj

/-- The pairs visited by `hadamard`, in closed form. -/
theorem hadamardPairs_eq (n q : Nat) (hq : q < n) :
    hadamardPairs n q
      = ((List.range (2 ^ n)).filter (fun p => decide (p % (2 * 2 ^ q) < 2 ^ q))).map
        (fun p => (p, p + 2 ^ q)) := by
  have e : hadamardPairs n q = forLoop (2 ^ n) (2 * 2 ^ q)
      (fun i acc => forLoop (2 ^ q) 1 (fun j acc => acc ++ [(i + j, i + j + 2 ^ q)])
        (2 ^ q) 0 acc) (2 ^ n) 0 [] := by
    simp only [hadamardPairs, one_shiftLeft_eq, pow_succ, Nat.mul_comm]
  rw [e]
  exact hadamardPairs_loops (2 ^ q) (2 ^ n) (Nat.two_pow_pos q) (two_mul_pow_dvd q n hq)

/-- An index below `N` occurs in exactly one of the visited pairs. -/
theorem pairs_countP (s N x : Nat) (hs : 0 < s) (hx : x < N) :
    (((List.range N).filter (fun p => decide (p % (2 * s) < s))).map
        (fun p => (p, p + s))).countP (fun pr => decide (pr.1 = x ∨ pr.2 = x)) = 1 := by
  have hbase : (if x % (2 * s) < s then x else x - s) ∈ List.range N := by
    rw [List.mem_range]
    by_cases h : x % (2 * s) < s
    · rw [if_pos h]
      exact hx
    · rw [if_neg h]
      omega
  rw [List.countP_map, List.countP_filter,
    ← List.count_eq_one_of_mem (List.nodup_range N) hbase, List.count_eq_countP]
  apply List.countP_congr
  intro p _
  simp only [Function.comp, Bool.and_eq_true, decide_eq_true_eq, beq_iff_eq]
  constructor
  · rintro ⟨hp | hp, hlow⟩
    · subst hp
      rw [if_pos hlow]
    · have hm := pair_upper_mod s p hlow
      subst hp
      rw [if_neg (by omega)]
      omega
  · intro hp
    by_cases h : x % (2 * s) < s
    · rw [if_pos h] at hp
      subst hp
      exact ⟨Or.inl rfl, h⟩
    · rw [if_neg h] at hp
      obtain ⟨h1, h2⟩ := pair_lower s x hs h
      have hr : x % (2 * s) < 2 * s := Nat.mod_lt _ (by omega)
      subst hp
      exact ⟨Or.inr (by omega), by omega⟩

/-- Claim C18. The stride loops of `hadamard` visit each pair exactly once:
for `q < n` the sequence of pairs `(pos0, pos1)` produced by the nested loops
has no repeated pair; its members are exactly the pairs `(p, p + 2 ^ q)` with
`p < 2 ^ n` and bit `q` of `p` equal to 0; every visited position is below
`2 ^ n`; every index below `2 ^ n` is touched by exactly one iteration; and
`hadamard` on a system of `n` qubits is the succession of the reads and writes
of these iterations. -/
theorem hadamard_pairs_once (n q : Nat) (hq : q < n) :
    (hadamardPairs n q).Nodup ∧
    (∀ pr : Nat × Nat, pr ∈ hadamardPairs n q ↔
      ∃ p, p < 2 ^ n ∧ p.testBit q = false ∧ pr = (p, p + 2 ^ q)) ∧
    (∀ pr : Nat × Nat, pr ∈ hadamardPairs n q → pr.1 < 2 ^ n ∧ pr.2 < 2 ^ n) ∧
    (∀ x, x < 2 ^ n →
      (hadamardPairs n q).countP (fun pr => decide (pr.1 = x ∨ pr.2 = x)) = 1) ∧
    (∀ qs : QuantumSystem ℂ, qs.num_qubits = n →
      (hadamard (⟨Real.sqrt, Complex.ofReal, Complex.re, starRingEnd ℂ⟩ : CMath ℝ ℂ)
        qs q).qubits
        = (hadamardPairs n q).foldl
          (fun v pr => hadamardPair (Complex.ofReal (1 / Real.sqrt 2)) pr v) qs.qubits) := by
  have hmem : ∀ pr : Nat × Nat, pr ∈ hadamardPairs n q ↔
      ∃ p, p < 2 ^ n ∧ p.testBit q = false ∧ pr = (p, p + 2 ^ q) := by
    intro pr
    rw [hadamardPairs_eq n q hq, List.mem_map]
    constructor
    · rintro ⟨p, hp, rfl⟩
      rw [List.mem_filter, List.mem_range, decide_eq_true_eq] at hp
      exact ⟨p, hp.1, (testBit_false_iff p q).2 hp.2, rfl⟩
    · rintro ⟨p, hp, hb, rfl⟩
      refine ⟨p, ?_, rfl⟩
      rw [List.mem_filter, List.mem_range, decide_eq_true_eq]
      exact ⟨hp, (testBit_false_iff p q).1 hb⟩
  refine ⟨?_, hmem, ?_, ?_, ?_⟩
  · rw [hadamardPairs_eq n q hq]
    apply List.Nodup.map
    · intro a b hab
      exact (Prod.mk.inj hab).1
    · exact List.Nodup.filter _ (List.nodup_range _)
  · intro pr hpr
    obtain ⟨p, hp, hb, rfl⟩ := (hmem pr).1 hpr
    exact ⟨hp, pair_upper_lt (2 ^ q) (2 ^ n) p (two_mul_pow_dvd q n hq) hp
      ((testBit_false_iff p q).1 hb)⟩
  · intro x hx
    rw [hadamardPairs_eq n q hq]
    exact pairs_countP (2 ^ q) (2 ^ n) x (Nat.two_pow_pos q) hx
  · intro qs hn
    rw [← hn]
    exact hadamard_eq_foldl _ qs q

/-- Witness of C18 on two qubits and qubit 0: the visited pairs are `(0, 1)`
and `(2, 3)`. -/
theorem hadamard_pairs_once_witness :
    0 < 2 ∧ hadamardPairs 2 0 = [(0, 1), (2, 3)] ∧ (hadamardPairs 2 0).Nodup :=
  ⟨by decide, rfl, (hadamard_pairs_once 2 0 (by decide)).1⟩

/-! ## Repeated measurement -/

/-- After outcome 0 the probability of outcome 0 is 1. -/
theorem prob0Sum_after_zero (q N : Nat) (v w : List ℂ) (hpos : 0 < prob0Sum q N v)
    (hw : ∀ i, i < N → w.getD i 0 =
      if i.testBit q = true then 0 else v.getD i 0 / (Real.sqrt (prob0Sum q N v) : ℂ)) :
    prob0Sum q N w = 1 := by
  have e : prob0Sum q N w = ∑ i ∈ Finset.range N,
      (if i.testBit q = true then 0 else Complex.normSq (v.getD i 0)) / prob0Sum q N v := by
    rw [prob0Sum_eq_sum_ite]
    apply Finset.sum_congr rfl
    intro i hi
    by_cases hb : i.testBit q = true
    · simp [hb]
    · rw [if_neg hb, if_neg hb, hw i (Finset.mem_range.1 hi), if_neg hb,
        normSq_div_sqrt _ _ (le_of_lt hpos)]
  rw [e, ← Finset.sum_div, ← prob0Sum_eq_sum_ite]
  exact div_self (ne_of_gt hpos)

/-- After outcome 1 the probability of outcome 0 is 0. -/
theorem prob0Sum_after_one (q N : Nat) (w : List ℂ)
    (hw : ∀ i, i < N → i.testBit q = false → w.getD i 0 = 0) :
    prob0Sum q N w = 0 := by
  rw [prob0Sum_eq_sum_ite]
  apply Finset.sum_eq_zero
  intro i hi
  by_cases hb : i.testBit q = true
  · rw [if_pos hb]
  · rw [if_neg hb, hw i (Finset.mem_range.1 hi) (by simpa using hb)]
    simp

/-- Claim C20. Repeating a measurement is idempotent: over exact arithmetic,
on an array of length `2 ^ n`, for every qubit `q` and all draws `r1`, `r2` in
`[0, 1)`, an immediately following `measure q` with draw `r2` returns the same
outcome as `measure q` with draw `r1` did and leaves the same system. -/
theorem measure_idempotent (qs : QuantumSystem ℂ) (q : Nat) (r1 r2 : ℝ)
    (hlen : qs.qubits.length = 2 ^ qs.num_qubits)
    (h1 : 0 ≤ r1) (h1' : r1 < 1) (h2 : 0 ≤ r2) (h2' : r2 < 1) :
    measure (⟨Real.sqrt, Complex.ofReal, Complex.re, starRingEnd ℂ⟩ : CMath ℝ ℂ)
      (measure (⟨Real.sqrt, Complex.ofReal, Complex.re, starRingEnd ℂ⟩ : CMath ℝ ℂ)
        qs q r1).2 q r2
      = measure (⟨Real.sqrt, Complex.ofReal, Complex.re, starRingEnd ℂ⟩ : CMath ℝ ℂ)
        qs q r1 := by
  obtain ⟨ho, hn, hl, hp⟩ := measure_exact qs q r1 hlen
  obtain ⟨ho2, hn2, hl2, hp2⟩ := measure_exact
    (measure (⟨Real.sqrt, Complex.ofReal, Complex.re, starRingEnd ℂ⟩ : CMath ℝ ℂ)
      qs q r1).2 q r2 (by rw [hn]; exact hl)
  rw [hn] at ho2 hn2 hl2 hp2
  by_cases hr : r1 < prob0Sum q (2 ^ qs.num_qubits) qs.qubits
  · have hpos : 0 < prob0Sum q (2 ^ qs.num_qubits) qs.qubits := lt_of_le_of_lt h1 hr
    simp only [if_pos hr] at ho hp
    have hP := prob0Sum_after_zero q (2 ^ qs.num_qubits) qs.qubits _ hpos hp
    rw [hP] at ho2
    simp only [hP, if_pos h2', Real.sqrt_one, Complex.ofReal_one, div_one] at hp2
    rw [if_pos h2'] at ho2
    apply Prod.ext
    · rw [ho2, ho]
    · apply qs_ext _ _ _ (hn2.trans hn.symm)
      apply ext_getD _ _ 0 (hl2.trans hl.symm)
      intro p hpl
      rw [hl2] at hpl
      rw [hp2 p hpl]
      by_cases hb : p.testBit q = true
      · rw [if_pos hb, hp p hpl, if_pos hb]
      · rw [if_neg hb]
  · have hlt : prob0Sum q (2 ^ qs.num_qubits) qs.qubits < 1 :=
      lt_of_le_of_lt (not_lt.1 hr) h1'
    simp only [if_neg hr] at ho hp
    have hP := prob0Sum_after_one q (2 ^ qs.num_qubits)
      (measure (⟨Real.sqrt, Complex.ofReal, Complex.re, starRingEnd ℂ⟩ : CMath ℝ ℂ)
        qs q r1).2.qubits
      (fun i hi hb => by rw [hp i hi, if_neg (by simp [hb])])
    have hr2 : ¬ r2 < 0 := not_lt.2 h2
    rw [hP, if_neg hr2] at ho2
    simp only [hP, if_neg hr2, sub_zero, Real.sqrt_one, Complex.ofReal_one, div_one] at hp2
    apply Prod.ext
    · rw [ho2, ho]
    · apply qs_ext _ _ _ (hn2.trans hn.symm)
      apply ext_getD _ _ 0 (hl2.trans hl.symm)
      intro p hpl
      rw [hl2] at hpl
      rw [hp2 p hpl]
      by_cases hb : p.testBit q = true
      · rw [if_pos hb]
      · rw [if_neg hb, hp p hpl, if_neg hb]

/-- Witness of C20 on the one-qubit ground state, qubit 0, draws 1/2 and 1/4. -/
theorem measure_idempotent_witness :
    ([1, 0] : List ℂ).length = 2 ^ 1 ∧
    (0 : ℝ) ≤ 1 / 2 ∧ (1 / 2 : ℝ) < 1 ∧ (0 : ℝ) ≤ 1 / 4 ∧ (1 / 4 : ℝ) < 1 ∧
    measure (⟨Real.sqrt, Complex.ofReal, Complex.re, starRingEnd ℂ⟩ : CMath ℝ ℂ)
      (measure (⟨Real.sqrt, Complex.ofReal, Complex.re, starRingEnd ℂ⟩ : CMath ℝ ℂ)
        ⟨[1, 0], 1⟩ 0 (1 / 2)).2 0 (1 / 4)
      = measure (⟨Real.sqrt, Complex.ofReal, Complex.re, starRingEnd ℂ⟩ : CMath ℝ ℂ)
        ⟨[1, 0], 1⟩ 0 (1 / 2) :=
  ⟨rfl, by norm_num, by norm_num, by norm_num, by norm_num,
    measure_idempotent ⟨[1, 0], 1⟩ 0 (1 / 2) (1 / 4) rfl (by norm_num) (by norm_num)
      (by norm_num) (by norm_num)⟩

/-! ## Measurement semantics -/

/-- On one qubit the probability of outcome 0 for qubit 0 is the squared
magnitude of the amplitude at index 0. -/
theorem prob0Sum_one_qubit (a b : ℂ) : prob0Sum 0 (2 ^ 1) [a, b] = Complex.normSq a := by
  have t0 : Nat.testBit 0 0 = false := by decide
  have t1 : Nat.testBit 1 0 = true := by decide
  rw [prob0Sum_eq_sum_ite]
  simp [Finset.sum_range_succ, t0, t1]

/-- Counterexample to C3: on the one-qubit array `[1, 7]`, qubit 0 and draw 1,
`p0 = 1`, so `measure` returns outcome 1 and the divisor `sqrt (1 - p0)` is 0.
Index 1 has bit 0 set and holds 7, and no amplitude is the quotient of 7 by
that divisor: the stored amplitude times the divisor is not 7. -/
theorem measure_semantics_counterexample :
    (measure (⟨Real.sqrt, Complex.ofReal, Complex.re, starRingEnd ℂ⟩ : CMath ℝ ℂ)
      ⟨[1, 7], 1⟩ 0 1).1 = 1 ∧
    Nat.testBit 1 0 = true ∧
    Real.sqrt (1 - prob0Sum 0 (2 ^ 1) [1, 7]) = 0 ∧
    (measure (⟨Real.sqrt, Complex.ofReal, Complex.re, starRingEnd ℂ⟩ : CMath ℝ ℂ)
      ⟨[1, 7], 1⟩ 0 1).2.qubits.getD 1 0
        * (Real.sqrt (1 - prob0Sum 0 (2 ^ 1) [1, 7]) : ℂ)
      ≠ ([1, 7] : List ℂ).getD 1 0 := by
  have hP : prob0Sum 0 (2 ^ 1) [1, 7] = 1 := by
    rw [prob0Sum_one_qubit]
    simp
  have hd : Real.sqrt (1 - prob0Sum 0 (2 ^ 1) [1, 7]) = 0 := by
    rw [hP]
    simp
  obtain ⟨ho, _, _, _⟩ := measure_exact ⟨[1, 7], 1⟩ 0 1 rfl
  simp only [hP] at ho
  refine ⟨?_, by decide, hd, ?_⟩
  · rw [ho, if_neg (lt_irrefl 1)]
  · rw [hd]
    simp

/-- Claim C3, amended. Measurement outcome and state update over exact
arithmetic, the draw `r` being an input.  With `p0` the sum of the squared
magnitudes at the indices below `2 ^ n` whose bit `q` is 0, `measure` returns 0
exactly when `r < p0` and 1 otherwise and keeps the length.  On outcome 0 the
new amplitude at `i` is 0 where bit `q` of `i` is 1 and, when `p0 > 0`, it is
`a[i] / sqrt p0` elsewhere; on outcome 1 it is 0 where bit `q` of `i` is 0 and,
when `1 - p0 > 0`, it is `a[i] / sqrt (1 - p0)` where bit `q` of `i` is 1. -/
theorem measure_semantics (qs : QuantumSystem ℂ) (q : Nat) (r : ℝ)
    (hlen : qs.qubits.length = 2 ^ qs.num_qubits) :
    ((measure (⟨Real.sqrt, Complex.ofReal, Complex.re, starRingEnd ℂ⟩ : CMath ℝ ℂ)
        qs q r).1 = 0 ↔ r < prob0Sum q (2 ^ qs.num_qubits) qs.qubits) ∧
    ((measure (⟨Real.sqrt, Complex.ofReal, Complex.re, starRingEnd ℂ⟩ : CMath ℝ ℂ)
        qs q r).1 = 1 ↔ ¬ r < prob0Sum q (2 ^ qs.num_qubits) qs.qubits) ∧
    (measure (⟨Real.sqrt, Complex.ofReal, Complex.re, starRingEnd ℂ⟩ : CMath ℝ ℂ)
        qs q r).2.qubits.length = 2 ^ qs.num_qubits ∧
    (r < prob0Sum q (2 ^ qs.num_qubits) qs.qubits →
      ∀ i, i < 2 ^ qs.num_qubits → i.testBit q = true →
      (measure (⟨Real.sqrt, Complex.ofReal, Complex.re, starRingEnd ℂ⟩ : CMath ℝ ℂ)
        qs q r).2.qubits[i]? = some 0) ∧
    (r < prob0Sum q (2 ^ qs.num_qubits) qs.qubits →
      0 < prob0Sum q (2 ^ qs.num_qubits) qs.qubits →
      ∀ i, i < 2 ^ qs.num_qubits → i.testBit q = false →
      (measure (⟨Real.sqrt, Complex.ofReal, Complex.re, starRingEnd ℂ⟩ : CMath ℝ ℂ)
        qs q r).2.qubits.getD i 0 =
        qs.qubits.getD i 0 /
          (Real.sqrt (prob0Sum q (2 ^ qs.num_qubits) qs.qubits) : ℂ)) ∧
    (¬ r < prob0Sum q (2 ^ qs.num_qubits) qs.qubits →
      ∀ i, i < 2 ^ qs.num_qubits → i.testBit q = false →
      (measure (⟨Real.sqrt, Complex.ofReal, Complex.re, starRingEnd ℂ⟩ : CMath ℝ ℂ)
        qs q r).2.qubits[i]? = some 0) ∧
    (¬ r < prob0Sum q (2 ^ qs.num_qubits) qs.qubits →
      0 < 1 - prob0Sum q (2 ^ qs.num_qubits) qs.qubits →
      ∀ i, i < 2 ^ qs.num_qubits → i.testBit q = true →
      (measure (⟨Real.sqrt, Complex.ofReal, Complex.re, starRingEnd ℂ⟩ : CMath ℝ ℂ)
        qs q r).2.qubits.getD i 0 =
        qs.qubits.getD i 0 /
          (Real.sqrt (1 - prob0Sum q (2 ^ qs.num_qubits) qs.qubits) : ℂ)) := by
  obtain ⟨h1, _, hl, hp⟩ := measure_exact qs q r hlen
  refine ⟨?_, ?_, hl, ?_, ?_, ?_, ?_⟩
  · rw [h1]
    by_cases hr : r < prob0Sum q (2 ^ qs.num_qubits) qs.qubits <;> simp [hr]
  · rw [h1]
    by_cases hr : r < prob0Sum q (2 ^ qs.num_qubits) qs.qubits <;> simp [hr]
  · intro hr i hi hb
    rw [getElem?_eq_some_getD _ i 0 (by rw [hl]; exact hi), hp i hi, if_pos hr, if_pos hb]
  · intro hr _ i hi hb
    rw [hp i hi, if_pos hr, if_neg (by simp [hb])]
  · intro hr i hi hb
    rw [getElem?_eq_some_getD _ i 0 (by rw [hl]; exact hi), hp i hi, if_neg hr,
      if_neg (by simp [hb])]
  · intro hr _ i hi hb
    rw [hp i hi, if_neg hr, if_pos hb]

/-- Witness of the amended C3 on the one-qubit array `[1, 0]`, qubit 0 and
draw 1/2: `p0 = 1` is positive and above the draw, and the amplitude at
index 0 becomes `1 / sqrt p0`. -/
theorem measure_semantics_witness :
    ([1, 0] : List ℂ).length = 2 ^ 1 ∧
    (1 / 2 : ℝ) < prob0Sum 0 (2 ^ 1) [1, 0] ∧
    0 < prob0Sum 0 (2 ^ 1) [1, 0] ∧
    (measure (⟨Real.sqrt, Complex.ofReal, Complex.re, starRingEnd ℂ⟩ : CMath ℝ ℂ)
        ⟨[1, 0], 1⟩ 0 (1 / 2)).2.qubits.getD 0 0
      = (1 : ℂ) / (Real.sqrt (prob0Sum 0 (2 ^ 1) [1, 0]) : ℂ) :=
  ⟨rfl, by rw [prob0Sum_ground]; norm_num, by rw [prob0Sum_ground]; norm_num,
    (measure_semantics ⟨[1, 0], 1⟩ 0 (1 / 2) rfl).2.2.2.2.1
      (by rw [prob0Sum_ground]; norm_num) (by rw [prob0Sum_ground]; norm_num)
      0 (by decide) (by decide)⟩

end Quantumloop
